import Mathlib

/-!
Verification of the task-graph scheduler and thread pool
(crates/tmp_core/src/task_graph.rs, crates/tmp_core/src/thread_pool.rs).

Shallow embedding conventions:
* `HashMap` is modelled as an association list iterated in insertion order
  (Rust's iteration order is unspecified; the properties proved below either
  hold for every order, or are order-independent facts such as level values
  and wave membership).
* a task's boxed `FnOnce` action is opaque to the scheduler; the only thing
  the scheduler can observe about it is whether running it panics, so the
  action is modelled by a single `panics : Bool` flag.
* `TaskGraph::execute` interacts with the world through the jobs it submits
  to the thread pool and the `TaskCompletion` barrier of each wave; the
  embedding returns, next to the mutated graph, one `Wave` record per
  iteration of the outer dispatch loop: the barrier's initial count
  (`group.len()`), the ids whose action was actually handed to the pool
  (registry removal succeeded), and how many `task_completed` signals those
  jobs deliver (a panicking action never reaches its `task_completed` call).
  `wait_for_completion` of a wave returns precisely when the signal count
  reaches the initial count, which `execHangs` below makes explicit.
-/

namespace Tempura

abbrev TaskId := Nat

/-- Embeds `struct Task`: the boxed action is reduced to its one observable
effect, whether it panics when run. -/
structure Task where
  id : TaskId
  name : String
  panics : Bool
deriving DecidableEq

/-- First-match lookup in an association list, `HashMap::get`. -/
def lookupA {α : Type} : List (TaskId × α) → TaskId → Option α
  | [], _ => none
  | (k', v) :: rest, k => if k' = k then some v else lookupA rest k

/-- `HashMap::insert`: replace the entry if the key is present, else append. -/
def insertA {α : Type} : List (TaskId × α) → TaskId → α → List (TaskId × α)
  | [], k, v => [(k, v)]
  | (k', v') :: rest, k, v =>
    if k' = k then (k, v) :: rest else (k', v') :: insertA rest k v

/-- `HashMap::remove`: drop the entry for the key (first match) and return it. -/
def removeA {α : Type} : List (TaskId × α) → TaskId → List (TaskId × α) × Option α
  | [], _ => ([], none)
  | (k', v') :: rest, k =>
    if k' = k then (rest, some v')
    else
      let r := removeA rest k
      ((k', v') :: r.1, r.2)

/-- `map.entry(k).or_insert_with(Vec::new).push(v)`. -/
def pushEntry : List (TaskId × List TaskId) → TaskId → TaskId → List (TaskId × List TaskId)
  | [], k, v => [(k, [v])]
  | (k', vs) :: rest, k, v =>
    if k' = k then (k', vs ++ [v]) :: rest else (k', vs) :: pushEntry rest k v

/-- `*map.entry(k).or_insert(0) += n`. -/
def bumpCount : List (TaskId × Nat) → TaskId → Nat → List (TaskId × Nat)
  | [], k, n => [(k, n)]
  | (k', c) :: rest, k, n =>
    if k' = k then (k', c + n) :: rest else (k', c) :: bumpCount rest k n

/-- The prerequisite list recorded for `t` (empty when no entry exists);
also used for the reverse map. -/
def depsOf (m : List (TaskId × List TaskId)) (t : TaskId) : List TaskId :=
  (lookupA m t).getD []

/-- Embeds `struct TaskGraph`.  The `thread_pool` field is not part of the
state here: the pool participates only through the jobs `execute` submits,
which the execution trace below records. -/
structure TaskGraph where
  tasks : List (TaskId × Task)
  dependencies : List (TaskId × List TaskId)
  reverse_dependencies : List (TaskId × List TaskId)
  next_id : Nat
deriving DecidableEq

/-- `TaskGraph::new`. -/
def TaskGraph.new : TaskGraph := ⟨[], [], [], 0⟩

/-- The keys of the task registry. -/
def registryKeys (g : TaskGraph) : List TaskId := g.tasks.map (·.1)

/-- `TaskGraph::add_task`: issue the next id, register the task, return the id. -/
def TaskGraph.add_task (g : TaskGraph) (name : String) (panics : Bool) :
    TaskGraph × TaskId :=
  let task_id := g.next_id
  ({ g with
      tasks := insertA g.tasks task_id ⟨task_id, name, panics⟩
      next_id := g.next_id + 1 }, task_id)

/-- `TaskGraph::add_dependency`: record the edge in the forward map and in the
reverse map (the trailing debug `println!` has no state effect). -/
def TaskGraph.add_dependency (g : TaskGraph) (task_id dependency_id : TaskId) :
    TaskGraph :=
  { g with
      dependencies := pushEntry g.dependencies task_id dependency_id
      reverse_dependencies := pushEntry g.reverse_dependencies dependency_id task_id }

/-- First loop of `topological_sort`: `for task in self.tasks.keys()
{ in_degree.insert(*task, 0); }`. -/
def insertZeros (m : List (TaskId × Nat)) : List (TaskId × Task) → List (TaskId × Nat)
  | [] => m
  | e :: rest => insertZeros (insertA m e.1 0) rest

/-- Second loop of `topological_sort`:
`for (&task, deps) in &self.dependencies { *in_degree.entry(task).or_insert(0) += deps.len(); }`. -/
def bumpCounts (m : List (TaskId × Nat)) : List (TaskId × List TaskId) → List (TaskId × Nat)
  | [] => m
  | e :: rest => bumpCounts (bumpCount m e.1 e.2.length) rest

/-- The `in_degree` map right before the Kahn loop starts. -/
def TaskGraph.inDegreeInit (g : TaskGraph) : List (TaskId × Nat) :=
  bumpCounts (insertZeros [] g.tasks) g.dependencies

/-- Inner loop of the Kahn iteration: for each dependent `d` of the task just
popped, `let count = in_degree.entry(d).or_default(); *count -= 1;
if *count <= 0 { queue.push_back(d); }`.  The counter is a `usize`; in every
state this loop reaches, the entry exists and is positive, so `Nat`
subtraction coincides with the Rust decrement. -/
def processDeps (indeg : List (TaskId × Nat)) (queue : List TaskId) :
    List TaskId → List (TaskId × Nat) × List TaskId
  | [] => (indeg, queue)
  | d :: rest =>
    let c := (lookupA indeg d).getD 0
    let c' := c - 1
    let indeg' := insertA indeg d c'
    if c' = 0 then processDeps indeg' (queue ++ [d]) rest
    else processDeps indeg' queue rest

/-- The `while let Some(task) = queue.pop_front()` loop of `topological_sort`,
with explicit fuel (the fuel chosen in `topological_sort` below exceeds the
total number of queue pushes that can ever happen, so it never runs out). -/
def kahnLoop (rev : List (TaskId × List TaskId)) :
    Nat → List (TaskId × Nat) → List TaskId → List TaskId → List TaskId
  | 0, _, _, sorted => sorted
  | fuel + 1, indeg, queue, sorted =>
    match queue with
    | [] => sorted
    | t :: qs =>
      let p := processDeps indeg qs (depsOf rev t)
      kahnLoop rev fuel p.1 p.2 (sorted ++ [t])

/-- Fuel bound for the Kahn loop: seeds plus one push per reverse-edge
occurrence, plus one. -/
def TaskGraph.kahnFuel (g : TaskGraph) : Nat :=
  g.inDegreeInit.length +
    (g.reverse_dependencies.foldl (fun n e => n + e.2.length) 0) + 1

/-- `TaskGraph::topological_sort` (Kahn's algorithm).  The initial queue holds
every zero-in-degree entry, in map-iteration order. -/
def TaskGraph.topological_sort (g : TaskGraph) : List TaskId :=
  let indeg := g.inDegreeInit
  let queue := (indeg.filter (fun e => e.2 == 0)).map (·.1)
  kahnLoop g.reverse_dependencies g.kahnFuel indeg queue []

/-- The level expression of `group_tasks`:
`self.dependencies.get(&t).map(|deps| deps.iter().map(|dep| levels[dep] + 1).max().unwrap_or(0)).unwrap_or(0)`.
Rust's `levels[dep]` panics when `dep` has no level yet; for every list this
code ever passes (outputs of `topological_sort`), prerequisites of a sorted
task are sorted earlier, so the entry exists and the `getD 0` default is
never consulted. -/
def levelOfTask (deps : List (TaskId × List TaskId)) (levels : List (TaskId × Nat))
    (t : TaskId) : Nat :=
  match lookupA deps t with
  | none => 0
  | some ds => ds.foldl (fun m d => max m ((lookupA levels d).getD 0 + 1)) 0

/-- First loop of `group_tasks`: walk the sorted sequence, record each task's
level, track the running maximum. -/
def computeLevelsAux (deps : List (TaskId × List TaskId))
    (levels : List (TaskId × Nat)) (maxLevel : Nat) :
    List TaskId → List (TaskId × Nat) × Nat
  | [] => (levels, maxLevel)
  | t :: rest =>
    let l := levelOfTask deps levels t
    computeLevelsAux deps (insertA levels t l) (max maxLevel l) rest

/-- The level map computed by `group_tasks` for a given sorted sequence. -/
def computeLevels (deps : List (TaskId × List TaskId)) (sorted_tasks : List TaskId) :
    List (TaskId × Nat) :=
  (computeLevelsAux deps [] 0 sorted_tasks).1

/-- `grouped_tasks[level].push(task_id)`.  Out-of-range indices leave the list
unchanged; `group_tasks` only ever uses indices up to the tracked maximum
level, which is in range. -/
def setPush : List (List TaskId) → Nat → TaskId → List (List TaskId)
  | [], _, _ => []
  | b :: bs, 0, t => (b ++ [t]) :: bs
  | b :: bs, i + 1, t => b :: setPush bs i t

/-- Second loop of `group_tasks`: distribute the level-map entries over the
`max_level + 1` buckets. -/
def fillGroups (gr : List (List TaskId)) : List (TaskId × Nat) → List (List TaskId)
  | [] => gr
  | e :: rest => fillGroups (setPush gr e.2 e.1) rest

/-- `TaskGraph::group_tasks`. -/
def TaskGraph.group_tasks (g : TaskGraph) (sorted_tasks : List TaskId) :
    List (List TaskId) :=
  let lm := computeLevelsAux g.dependencies [] 0 sorted_tasks
  fillGroups (List.replicate (lm.2 + 1) []) lm.1

/-- One dispatch wave as observed from outside: the initial count of its
`TaskCompletion` barrier (`group.len()`), the ids whose action was submitted
to the pool, and the number of `task_completed` signals the wave's jobs
eventually deliver. -/
structure Wave where
  barrierInit : Nat
  submitted : List TaskId
  signals : Nat
deriving DecidableEq

/-- Inner loop of one wave of `execute`: for each id of the group, remove the
task from the registry; when present, submit the wrapper job, which signals
`task_completed` only if the action returns (a panic unwinds first). -/
def runWaveCore (registry : List (TaskId × Task)) :
    List TaskId → List (TaskId × Task) × List TaskId × Nat
  | [] => (registry, [], 0)
  | task_id :: rest =>
    let r := removeA registry task_id
    match r.2 with
    | some task =>
      let k := runWaveCore r.1 rest
      (k.1, task_id :: k.2.1, (if task.panics then 0 else 1) + k.2.2)
    | none => runWaveCore r.1 rest

/-- One wave: barrier created with `group.len()`, then the group dispatched. -/
def runWave (registry : List (TaskId × Task)) (group : List TaskId) :
    List (TaskId × Task) × Wave :=
  let c := runWaveCore registry group
  (c.1, { barrierInit := group.length, submitted := c.2.1, signals := c.2.2 })

/-- The outer `for group in task_groups` loop of `execute`. -/
def execWaves (registry : List (TaskId × Task)) :
    List (List TaskId) → List (TaskId × Task) × List Wave
  | [] => (registry, [])
  | grp :: rest =>
    let rw := runWave registry grp
    let k := execWaves rw.1 rest
    (k.1, rw.2 :: k.2)

/-- `TaskGraph::execute`: sort, group, then dispatch wave by wave, blocking on
each wave's barrier.  Returns the mutated graph and the trace of waves. -/
def TaskGraph.execute (g : TaskGraph) : TaskGraph × List Wave :=
  let sorted := g.topological_sort
  let groups := g.group_tasks sorted
  let ew := execWaves g.tasks groups
  ({ g with tasks := ew.1 }, ew.2)

/-- `wait_for_completion` of some wave never returns: the barrier's counter,
decremented once per signal, stays positive forever.  (Execution cannot
proceed past the first such wave; the trace after it is the dispatch that
would have happened.) -/
def execHangs (waves : List Wave) : Prop :=
  ∃ w ∈ waves, w.signals < w.barrierInit

/-- A message travelling through the pool's mpsc channel. -/
inductive PoolMsg where
  | job (panics : Bool)
  | terminate
deriving DecidableEq

/-- Embeds `struct ThreadPool`: the number of (live) workers spawned by `new`,
and the FIFO contents of the shared channel.  The pool struct itself keeps a
clone of the receiver (`receiver` field), so the channel stays open for the
whole lifetime of the pool, whatever happened to the workers. -/
structure ThreadPool where
  workers : Nat
  queue : List PoolMsg
deriving DecidableEq

/-- `ThreadPool::new`: `assert!(size > 0)` panics on zero (`none`); otherwise
spawns `size` workers on an empty channel. -/
def ThreadPool.new (size : Nat) : Option ThreadPool :=
  if size = 0 then none else some ⟨size, []⟩

/-- `ThreadPool::execute`: `self.sender.send(Message::Job(job)).unwrap()`.
The send always succeeds — the pool's own `receiver` field keeps the channel
open — so the job is unconditionally enqueued and the call returns `()`;
there is no error path in the source. -/
def ThreadPool.execute (p : ThreadPool) (panics : Bool) : ThreadPool :=
  { p with queue := p.queue ++ [PoolMsg.job panics] }

/-- `ThreadPool::join`: send one `Terminate` per worker, then join the worker
threads.  The pool value survives (join takes `&mut self`). -/
def ThreadPool.join (p : ThreadPool) : ThreadPool :=
  { p with queue := p.queue ++ List.replicate p.workers PoolMsg.terminate }

/-- What the workers collectively consume from the channel, in FIFO order:
each `Terminate` retires one worker; once no worker is left, remaining
messages are never received.  Returns the panic flags of the jobs that
actually ran. -/
def runQueue : Nat → List PoolMsg → List Bool
  | _, [] => []
  | 0, _ => []
  | w + 1, PoolMsg.job b :: rest => b :: runQueue (w + 1) rest
  | w + 1, PoolMsg.terminate :: rest => runQueue w rest

/-- A call against the graph-building API, for stating properties over every
reachable `TaskGraph`. -/
inductive Op where
  | addTask (name : String) (panics : Bool)
  | addDep (dependent prerequisite : TaskId)

/-- Apply one API call. -/
def applyOp (g : TaskGraph) : Op → TaskGraph
  | .addTask n p => (g.add_task n p).1
  | .addDep d q => g.add_dependency d q

/-- Replay a sequence of API calls from a given graph. -/
def buildFrom (g : TaskGraph) : List Op → TaskGraph
  | [] => g
  | op :: rest => buildFrom (applyOp g op) rest

/-- The graph reached from `TaskGraph::new` by a sequence of API calls. -/
def build (ops : List Op) : TaskGraph := buildFrom TaskGraph.new ops

/-- The forward and reverse dependency maps record the same multiset of
edges: the pair (dependent `d`, prerequisite `p`) occurs in the forward list
of `d` exactly as often as `d` occurs in the reverse list of `p`. -/
def Consistent (g : TaskGraph) : Prop :=
  ∀ d p, (depsOf g.dependencies d).count p = (depsOf g.reverse_dependencies p).count d

/-- Every edge endpoint was produced by `add_task` on this graph. -/
def ValidEdges (g : TaskGraph) : Prop :=
  ∀ e ∈ g.dependencies, e.1 ∈ registryKeys g ∧ ∀ p ∈ e.2, p ∈ registryKeys g

/-- `s` lists a set of tasks in an order compatible with the dependency map:
no repetitions, and every prerequisite of a listed task is listed strictly
earlier. -/
def IsTopoOrder (deps : List (TaskId × List TaskId)) (s : List TaskId) : Prop :=
  s.Nodup ∧ ∀ i, i < s.length → ∀ p ∈ depsOf deps (s.getD i 0), p ∈ s.take i

/-- Key list of an association list. -/
def keysA {α : Type} (m : List (TaskId × α)) : List TaskId := m.map Prod.fst

/-- Position of the first occurrence of `t` (length of the list when absent). -/
def posOf : List TaskId → TaskId → Nat
  | [], _ => 0
  | x :: rest, t => if x = t then 0 else posOf rest t + 1

/-- Split form of the topological-order property: every prerequisite of a
listed task occurs strictly earlier in the list. -/
def SortedTopo (deps : List (TaskId × List TaskId)) (s : List TaskId) : Prop :=
  ∀ s₁ t s₂, s = s₁ ++ t :: s₂ → ∀ p ∈ depsOf deps t, p ∈ s₁

/-- Invariant of the Kahn loop, relative to a fixed graph `g`: the sorted
output and the queue never repeat or invent ids, each in-degree counter holds
the number of prerequisite occurrences not yet sorted, queued tasks have all
prerequisites sorted, and the sorted list is topologically ordered. -/
structure KahnInv (g : TaskGraph) (indeg : List (TaskId × Nat))
    (queue sorted : List TaskId) : Prop where
  nodup : (sorted ++ queue).Nodup
  keysSub : ∀ t ∈ sorted ++ queue, lookupA g.inDegreeInit t ≠ none
  degSome : ∀ t, lookupA indeg t ≠ none ↔ lookupA g.inDegreeInit t ≠ none
  degVal : ∀ t, lookupA g.inDegreeInit t ≠ none →
    lookupA indeg t =
      some ((depsOf g.dependencies t).filter (fun p => !(decide (p ∈ sorted)))).length
  queueDone : ∀ t ∈ queue, ∀ p ∈ depsOf g.dependencies t, p ∈ sorted
  topo : SortedTopo g.dependencies sorted

/-- Invariant of `processDeps` while the reverse list of the freshly sorted
task `t` is being consumed; `sorted'` already ends with `t` and `rem` is the
part of `rev t` still to process. -/
structure PDInv (g : TaskGraph) (sorted' : List TaskId)
    (indeg : List (TaskId × Nat)) (queue : List TaskId) (rem : List TaskId) : Prop where
  nodup : (sorted' ++ queue).Nodup
  keysSub : ∀ t ∈ sorted' ++ queue, lookupA g.inDegreeInit t ≠ none
  degSome : ∀ t, lookupA indeg t ≠ none ↔ lookupA g.inDegreeInit t ≠ none
  degVal : ∀ t, lookupA g.inDegreeInit t ≠ none →
    lookupA indeg t =
      some (((depsOf g.dependencies t).filter (fun p => !(decide (p ∈ sorted')))).length
            + rem.count t)
  queueDone : ∀ t ∈ queue, (∀ p ∈ depsOf g.dependencies t, p ∈ sorted') ∧ rem.count t = 0
  topo : SortedTopo g.dependencies sorted'

/-- Structural facts that hold for every graph reachable through the API. -/
structure BuildInv (g : TaskGraph) : Prop where
  tasksNodup : (registryKeys g).Nodup
  tasksLt : ∀ e ∈ g.tasks, e.1 < g.next_id
  depsKeysNodup : (keysA g.dependencies).Nodup
  revKeysNodup : (keysA g.reverse_dependencies).Nodup
  depsNonempty : ∀ e ∈ g.dependencies, e.2 ≠ []
  revNonempty : ∀ e ∈ g.reverse_dependencies, e.2 ≠ []
  cons : Consistent g

instance (g : TaskGraph) : Decidable (ValidEdges g) := by
  unfold ValidEdges; exact inferInstance

instance (deps : List (TaskId × List TaskId)) (s : List TaskId) :
    Decidable (IsTopoOrder deps s) := by
  unfold IsTopoOrder; exact inferInstance

instance (waves : List Wave) : Decidable (execHangs waves) := by
  unfold execHangs; exact inferInstance

/-- Scenario A of the spec: tasks T1..T5 (ids 0..4) with edges T2→T1, T3→T2,
T4→T1, T5→T3, T5→T4. -/
def opsA : List Op :=
  [.addTask "task1" false, .addTask "task2" false, .addTask "task3" false,
   .addTask "task4" false, .addTask "task5" false,
   .addDep 1 0, .addDep 2 1, .addDep 3 0, .addDep 4 2, .addDep 4 3]

/-- A two-task dependency cycle. -/
def opsC3 : List Op :=
  [.addTask "a" false, .addTask "b" false, .addDep 0 1, .addDep 1 0]

/-- A single task whose action panics. -/
def opsC4 : List Op := [.addTask "boom" true]

/-- One registered task, plus an edge whose dependent id 9 was never
registered on this graph (e.g. obtained from another instance). -/
def opsC10w : List Op := [.addTask "p" false, .addDep 9 0]

/-- An edge both of whose endpoints are foreign: the dependent id 5 never
reaches the queue because its prerequisite 7 is never scheduled. -/
def opsC10bad : List Op := [.addDep 5 7]

/-! ### Association-list lemmas -/

theorem lookupA_insertA {α : Type} (m : List (TaskId × α)) (k k' : TaskId) (v : α) :
    lookupA (insertA m k v) k' = if k = k' then some v else lookupA m k' := by
  induction m with
  | nil => simp [insertA, lookupA]
  | cons e rest ih =>
    obtain ⟨k0, v0⟩ := e
    by_cases h0 : k0 = k
    · subst h0
      by_cases h1 : k0 = k'
      · subst h1; simp [insertA, lookupA]
      · simp [insertA, lookupA, h1]
    · by_cases h1 : k0 = k'
      · subst h1
        have hkk : ¬ k = k0 := fun h => h0 h.symm
        simp [insertA, h0, lookupA, hkk]
      · simp [insertA, h0, lookupA, h1, ih]

theorem mem_keysA_iff {α : Type} (m : List (TaskId × α)) (k : TaskId) :
    k ∈ keysA m ↔ lookupA m k ≠ none := by
  induction m with
  | nil => simp [keysA, lookupA]
  | cons e rest ih =>
    obtain ⟨k0, v0⟩ := e
    by_cases h0 : k0 = k
    · subst h0; simp [keysA, lookupA]
    · simp [keysA, lookupA, h0, Ne.symm h0] at ih ⊢
      exact ih

theorem keysA_insertA_mem {α : Type} (m : List (TaskId × α)) (k k' : TaskId) (v : α) :
    k' ∈ keysA (insertA m k v) ↔ k' ∈ keysA m ∨ k' = k := by
  rw [mem_keysA_iff, lookupA_insertA, mem_keysA_iff]
  by_cases h : k = k'
  · subst h; simp
  · have h' : ¬ k' = k := fun hh => h hh.symm
    simp [h, h']

theorem keysA_insertA_nodup {α : Type} (m : List (TaskId × α)) (k : TaskId) (v : α)
    (h : (keysA m).Nodup) : (keysA (insertA m k v)).Nodup := by
  induction m with
  | nil => simp [insertA, keysA]
  | cons e rest ih =>
    obtain ⟨k0, v0⟩ := e
    simp only [keysA, List.map_cons, List.nodup_cons] at h
    obtain ⟨hk0, hrest⟩ := h
    by_cases h0 : k0 = k
    · subst h0
      have he : insertA ((k0, v0) :: rest) k0 v = (k0, v) :: rest := by simp [insertA]
      rw [he]
      simp only [keysA, List.map_cons, List.nodup_cons]
      exact ⟨hk0, hrest⟩
    · have he : insertA ((k0, v0) :: rest) k v = (k0, v0) :: insertA rest k v := by
        simp [insertA, h0]
      rw [he]
      simp only [keysA, List.map_cons, List.nodup_cons]
      constructor
      · intro hmem
        rcases (keysA_insertA_mem rest k k0 v).1 hmem with hh | hh
        · exact hk0 hh
        · exact h0 hh
      · exact ih hrest

theorem lookupA_eq_some_mem {α : Type} {m : List (TaskId × α)} {k : TaskId} {v : α}
    (h : lookupA m k = some v) : (k, v) ∈ m := by
  induction m with
  | nil => simp [lookupA] at h
  | cons e rest ih =>
    obtain ⟨k0, v0⟩ := e
    by_cases h0 : k0 = k
    · subst h0
      simp [lookupA] at h
      subst h
      exact List.mem_cons_self _ _
    · have heq : lookupA ((k0, v0) :: rest) k = lookupA rest k := by simp [lookupA, h0]
      rw [heq] at h
      exact List.mem_cons_of_mem _ (ih h)

theorem lookupA_of_mem_nodup {α : Type} {m : List (TaskId × α)} {k : TaskId} {v : α}
    (hn : (keysA m).Nodup) (h : (k, v) ∈ m) : lookupA m k = some v := by
  induction m with
  | nil => simp at h
  | cons e rest ih =>
    obtain ⟨k0, v0⟩ := e
    simp only [keysA, List.map_cons, List.nodup_cons] at hn
    rcases List.mem_cons.1 h with h | h
    · cases h
      simp [lookupA]
    · by_cases h0 : k0 = k
      · subst h0
        exact absurd (List.mem_map_of_mem Prod.fst h) hn.1
      · have heq : lookupA ((k0, v0) :: rest) k = lookupA rest k := by simp [lookupA, h0]
        rw [heq]
        exact ih hn.2 h

theorem removeA_snd {α : Type} (m : List (TaskId × α)) (k : TaskId) :
    (removeA m k).2 = lookupA m k := by
  induction m with
  | nil => simp [removeA, lookupA]
  | cons e rest ih =>
    obtain ⟨k0, v0⟩ := e
    by_cases h0 : k0 = k
    · subst h0; simp [removeA, lookupA]
    · simp [removeA, h0, lookupA, ih]

theorem removeA_fst_sublist {α : Type} (m : List (TaskId × α)) (k : TaskId) :
    (removeA m k).1.Sublist m := by
  induction m with
  | nil => simp [removeA]
  | cons e rest ih =>
    obtain ⟨k0, v0⟩ := e
    by_cases h0 : k0 = k
    · subst h0; simp [removeA]
    · simpa [removeA, h0] using ih

theorem lookupA_removeA_ne {α : Type} (m : List (TaskId × α)) (k k' : TaskId)
    (h : k' ≠ k) : lookupA (removeA m k).1 k' = lookupA m k' := by
  induction m with
  | nil => simp [removeA]
  | cons e rest ih =>
    obtain ⟨k0, v0⟩ := e
    by_cases h0 : k0 = k
    · subst h0
      have h' : ¬ k0 = k' := fun hh => h hh.symm
      simp [removeA, lookupA, h']
    · by_cases h1 : k0 = k'
      · subst h1; simp [removeA, h0, lookupA]
      · simp [removeA, h0, lookupA, h1, ih]

theorem removeA_fst_filter {α : Type} (m : List (TaskId × α)) (k : TaskId)
    (hn : (keysA m).Nodup) : (removeA m k).1 = m.filter (fun e => !(e.1 == k)) := by
  induction m with
  | nil => simp [removeA]
  | cons e rest ih =>
    obtain ⟨k0, v0⟩ := e
    simp only [keysA, List.map_cons, List.nodup_cons] at hn
    by_cases h0 : k0 = k
    · subst h0
      have : rest.filter (fun e => !(e.1 == k0)) = rest := by
        apply List.filter_eq_self.2
        intro e he
        simp only [Bool.not_eq_eq_eq_not, Bool.not_true, beq_eq_false_iff_ne, ne_eq]
        intro hh
        exact hn.1 (hh ▸ List.mem_map_of_mem Prod.fst he)
      simp [removeA, this]
    · simp [removeA, h0, ih hn.2]

theorem lookupA_pushEntry (m : List (TaskId × List TaskId)) (k k' v : TaskId) :
    lookupA (pushEntry m k v) k' =
      if k = k' then some ((lookupA m k).getD [] ++ [v]) else lookupA m k' := by
  induction m with
  | nil => simp [pushEntry, lookupA]
  | cons e rest ih =>
    obtain ⟨k0, v0⟩ := e
    by_cases h0 : k0 = k
    · subst h0
      by_cases h1 : k0 = k'
      · subst h1; simp [pushEntry, lookupA]
      · simp [pushEntry, lookupA, h1]
    · by_cases h1 : k0 = k'
      · subst h1
        have hkk : ¬ k = k0 := fun h => h0 h.symm
        simp [pushEntry, h0, lookupA, hkk]
      · simp [pushEntry, h0, lookupA, h1, ih]

theorem keysA_pushEntry_mem (m : List (TaskId × List TaskId)) (k k' v : TaskId) :
    k' ∈ keysA (pushEntry m k v) ↔ k' ∈ keysA m ∨ k' = k := by
  rw [mem_keysA_iff, lookupA_pushEntry, mem_keysA_iff]
  by_cases h : k = k'
  · subst h; simp
  · have h' : ¬ k' = k := fun hh => h hh.symm
    simp [h, h']

theorem keysA_pushEntry_nodup (m : List (TaskId × List TaskId)) (k v : TaskId)
    (h : (keysA m).Nodup) : (keysA (pushEntry m k v)).Nodup := by
  induction m with
  | nil => simp [pushEntry, keysA]
  | cons e rest ih =>
    obtain ⟨k0, v0⟩ := e
    simp only [keysA, List.map_cons, List.nodup_cons] at h
    obtain ⟨hk0, hrest⟩ := h
    by_cases h0 : k0 = k
    · subst h0
      have he : pushEntry ((k0, v0) :: rest) k0 v = (k0, v0 ++ [v]) :: rest := by
        simp [pushEntry]
      rw [he]
      simp only [keysA, List.map_cons, List.nodup_cons]
      exact ⟨hk0, hrest⟩
    · have he : pushEntry ((k0, v0) :: rest) k v = (k0, v0) :: pushEntry rest k v := by
        simp [pushEntry, h0]
      rw [he]
      simp only [keysA, List.map_cons, List.nodup_cons]
      constructor
      · intro hmem
        rcases (keysA_pushEntry_mem rest k k0 v).1 hmem with hh | hh
        · exact hk0 hh
        · exact h0 hh
      · exact ih hrest

theorem pushEntry_nonempty (m : List (TaskId × List TaskId)) (k v : TaskId)
    (h : ∀ e ∈ m, e.2 ≠ []) : ∀ e ∈ pushEntry m k v, e.2 ≠ [] := by
  induction m with
  | nil =>
    intro e he
    simp [pushEntry] at he
    simp [he]
  | cons e0 rest ih =>
    obtain ⟨k0, v0⟩ := e0
    intro e he
    by_cases h0 : k0 = k
    · subst h0
      have heq : pushEntry ((k0, v0) :: rest) k0 v = (k0, v0 ++ [v]) :: rest := by
        simp [pushEntry]
      rw [heq] at he
      rcases List.mem_cons.1 he with he | he
      · simp [he]
      · exact h e (List.mem_cons_of_mem _ he)
    · have heq : pushEntry ((k0, v0) :: rest) k v = (k0, v0) :: pushEntry rest k v := by
        simp [pushEntry, h0]
      rw [heq] at he
      rcases List.mem_cons.1 he with he | he
      · exact h e (he ▸ List.mem_cons_self _ _)
      · exact ih (fun e' he' => h e' (List.mem_cons_of_mem _ he')) e he

theorem lookupA_bumpCount (m : List (TaskId × Nat)) (k k' : TaskId) (n : Nat) :
    lookupA (bumpCount m k n) k' =
      if k = k' then some ((lookupA m k).getD 0 + n) else lookupA m k' := by
  induction m with
  | nil => simp [bumpCount, lookupA]
  | cons e rest ih =>
    obtain ⟨k0, v0⟩ := e
    by_cases h0 : k0 = k
    · subst h0
      by_cases h1 : k0 = k'
      · subst h1; simp [bumpCount, lookupA]
      · simp [bumpCount, lookupA, h1]
    · by_cases h1 : k0 = k'
      · subst h1
        have hkk : ¬ k = k0 := fun h => h0 h.symm
        simp [bumpCount, h0, lookupA, hkk]
      · simp [bumpCount, h0, lookupA, h1, ih]

theorem keysA_bumpCount_mem (m : List (TaskId × Nat)) (k k' : TaskId) (n : Nat) :
    k' ∈ keysA (bumpCount m k n) ↔ k' ∈ keysA m ∨ k' = k := by
  rw [mem_keysA_iff, lookupA_bumpCount, mem_keysA_iff]
  by_cases h : k = k'
  · subst h; simp
  · have h' : ¬ k' = k := fun hh => h hh.symm
    simp [h, h']

theorem keysA_bumpCount_nodup (m : List (TaskId × Nat)) (k : TaskId) (n : Nat)
    (h : (keysA m).Nodup) : (keysA (bumpCount m k n)).Nodup := by
  induction m with
  | nil => simp [bumpCount, keysA]
  | cons e rest ih =>
    obtain ⟨k0, v0⟩ := e
    simp only [keysA, List.map_cons, List.nodup_cons] at h
    obtain ⟨hk0, hrest⟩ := h
    by_cases h0 : k0 = k
    · subst h0
      have he : bumpCount ((k0, v0) :: rest) k0 n = (k0, v0 + n) :: rest := by
        simp [bumpCount]
      rw [he]
      simp only [keysA, List.map_cons, List.nodup_cons]
      exact ⟨hk0, hrest⟩
    · have he : bumpCount ((k0, v0) :: rest) k n = (k0, v0) :: bumpCount rest k n := by
        simp [bumpCount, h0]
      rw [he]
      simp only [keysA, List.map_cons, List.nodup_cons]
      constructor
      · intro hmem
        rcases (keysA_bumpCount_mem rest k k0 n).1 hmem with hh | hh
        · exact hk0 hh
        · exact h0 hh
      · exact ih hrest

theorem mem_insertA {α : Type} {m : List (TaskId × α)} {k : TaskId} {v : α} {e : TaskId × α}
    (h : e ∈ insertA m k v) : e ∈ m ∨ e = (k, v) := by
  induction m with
  | nil =>
    simp [insertA] at h
    simp [h]
  | cons e0 rest ih =>
    obtain ⟨k0, v0⟩ := e0
    by_cases h0 : k0 = k
    · subst h0
      have heq : insertA ((k0, v0) :: rest) k0 v = (k0, v) :: rest := by simp [insertA]
      rw [heq] at h
      rcases List.mem_cons.1 h with hh | hh
      · exact Or.inr hh
      · exact Or.inl (List.mem_cons_of_mem _ hh)
    · have heq : insertA ((k0, v0) :: rest) k v = (k0, v0) :: insertA rest k v := by
        simp [insertA, h0]
      rw [heq] at h
      rcases List.mem_cons.1 h with hh | hh
      · exact Or.inl (by simp [hh])
      · rcases ih hh with h2 | h2
        · exact Or.inl (List.mem_cons_of_mem _ h2)
        · exact Or.inr h2

/-! ### Invariants of graphs reachable through the API -/

theorem registryKeys_eq (g : TaskGraph) : registryKeys g = keysA g.tasks := rfl

theorem depsOf_pushEntry (m : List (TaskId × List TaskId)) (k v t : TaskId) :
    depsOf (pushEntry m k v) t = if k = t then depsOf m k ++ [v] else depsOf m t := by
  unfold depsOf
  rw [lookupA_pushEntry]
  by_cases h : k = t
  · subst h; simp
  · simp [h]

theorem buildInv_new : BuildInv TaskGraph.new := by
  refine ⟨?_, ?_, ?_, ?_, ?_, ?_, ?_⟩ <;>
    simp [TaskGraph.new, registryKeys, keysA, Consistent, depsOf, lookupA]

theorem consistent_add_dependency (g : TaskGraph) (d q : TaskId) (h : Consistent g) :
    Consistent (g.add_dependency d q) := by
  intro x y
  show (depsOf (pushEntry g.dependencies d q) x).count y
      = (depsOf (pushEntry g.reverse_dependencies q d) y).count x
  rw [depsOf_pushEntry, depsOf_pushEntry]
  by_cases hx : d = x
  · subst hx
    by_cases hy : q = y
    · subst hy
      simp [List.count_append, h d q]
    · have hy' : ¬ y = q := fun hh => hy hh.symm
      simp [List.count_append, hy, hy', h d y]
  · by_cases hy : q = y
    · subst hy
      have hx' : ¬ x = d := fun hh => hx hh.symm
      simp [List.count_append, hx, hx', h x q]
    · simp [hx, hy, h x y]

theorem buildInv_applyOp (g : TaskGraph) (op : Op) (h : BuildInv g) :
    BuildInv (applyOp g op) := by
  cases op with
  | addTask n pan =>
    refine ⟨?_, ?_, h.depsKeysNodup, h.revKeysNodup, h.depsNonempty, h.revNonempty, h.cons⟩
    · rw [registryKeys_eq]
      exact keysA_insertA_nodup _ _ _ (registryKeys_eq g ▸ h.tasksNodup)
    · intro e he
      rcases mem_insertA he with hh | hh
      · exact Nat.lt_trans (h.tasksLt e hh) (Nat.lt_succ_self _)
      · subst hh; exact Nat.lt_succ_self _
  | addDep d q =>
    refine ⟨h.tasksNodup, h.tasksLt, ?_, ?_, ?_, ?_, consistent_add_dependency g d q h.cons⟩
    · exact keysA_pushEntry_nodup _ _ _ h.depsKeysNodup
    · exact keysA_pushEntry_nodup _ _ _ h.revKeysNodup
    · exact pushEntry_nonempty _ _ _ h.depsNonempty
    · exact pushEntry_nonempty _ _ _ h.revNonempty

theorem buildInv_buildFrom (ops : List Op) :
    ∀ g, BuildInv g → BuildInv (buildFrom g ops) := by
  induction ops with
  | nil => intro g h; exact h
  | cons op rest ih =>
    intro g h
    exact ih _ (buildInv_applyOp g op h)

theorem buildInv_build (ops : List Op) : BuildInv (build ops) :=
  buildInv_buildFrom ops TaskGraph.new buildInv_new

/-! ### The initial in-degree map -/

theorem lookupA_insertZeros (reg : List (TaskId × Task)) :
    ∀ m t, lookupA (insertZeros m reg) t = if t ∈ keysA reg then some 0 else lookupA m t := by
  induction reg with
  | nil => intro m t; simp [insertZeros, keysA]
  | cons e rest ih =>
    intro m t
    rw [insertZeros, ih]
    by_cases h1 : t ∈ keysA rest
    · simp only [keysA, List.map_cons, List.mem_cons] at h1 ⊢
      simp [h1]
    · rw [lookupA_insertA]
      by_cases h2 : e.1 = t
      · simp only [keysA, List.map_cons, List.mem_cons] at h1 ⊢
        simp [h1, h2]
      · have hnm : ¬ (t = e.1 ∨ t ∈ List.map Prod.fst rest) := by
          rintro (hh | hh)
          · exact h2 hh.symm
          · exact h1 hh
        have h2' : ¬ t = e.1 := fun hh => h2 hh.symm
        simp only [keysA, List.map_cons, List.mem_cons] at h1 ⊢
        simp [h1, h2, h2', hnm]

theorem lookupA_bumpCounts_not_mem (ds : List (TaskId × List TaskId)) :
    ∀ m t, t ∉ keysA ds → lookupA (bumpCounts m ds) t = lookupA m t := by
  induction ds with
  | nil => intro m t _; rfl
  | cons e rest ih =>
    intro m t ht
    simp only [keysA, List.map_cons, List.mem_cons] at ht
    push_neg at ht
    rw [bumpCounts, ih _ _ (by simpa [keysA] using ht.2), lookupA_bumpCount]
    have : ¬ e.1 = t := fun hh => ht.1 hh.symm
    simp [this]

theorem lookupA_bumpCounts (ds : List (TaskId × List TaskId)) :
    ∀ m t, (keysA ds).Nodup →
      lookupA (bumpCounts m ds) t =
        match lookupA ds t with
        | some l => some ((lookupA m t).getD 0 + l.length)
        | none => lookupA m t := by
  induction ds with
  | nil => intro m t _; rfl
  | cons e rest ih =>
    intro m t hnd
    obtain ⟨k, l⟩ := e
    simp only [keysA, List.map_cons, List.nodup_cons] at hnd
    by_cases hk : k = t
    · subst hk
      rw [bumpCounts, lookupA_bumpCounts_not_mem rest _ _ (by simpa [keysA] using hnd.1)]
      rw [lookupA_bumpCount]
      simp [lookupA]
    · rw [bumpCounts, ih _ _ hnd.2]
      have hlk : lookupA ((k, l) :: rest) t = lookupA rest t := by simp [lookupA, hk]
      rw [hlk]
      cases hrt : lookupA rest t with
      | none => simp [lookupA_bumpCount, hk]
      | some l2 => simp [lookupA_bumpCount, hk]

theorem inDegreeInit_lookup (g : TaskGraph) (hdn : (keysA g.dependencies).Nodup) (t : TaskId) :
    lookupA g.inDegreeInit t =
      if t ∈ registryKeys g ∨ t ∈ keysA g.dependencies
      then some (depsOf g.dependencies t).length else none := by
  unfold TaskGraph.inDegreeInit
  rw [lookupA_bumpCounts _ _ _ hdn]
  cases hd : lookupA g.dependencies t with
  | some l =>
    have hmem : t ∈ keysA g.dependencies := (mem_keysA_iff _ _).2 (by simp [hd])
    rw [lookupA_insertZeros]
    by_cases hr : t ∈ keysA g.tasks <;>
      simp [registryKeys_eq, hr, hmem, depsOf, hd, lookupA]
  | none =>
    have hmem : t ∉ keysA g.dependencies := by
      rw [mem_keysA_iff]; simp [hd]
    rw [lookupA_insertZeros]
    by_cases hr : t ∈ keysA g.tasks <;>
      simp [registryKeys_eq, hr, hmem, depsOf, hd, lookupA]

theorem keysA_insertZeros_nodup (reg : List (TaskId × Task)) :
    ∀ m, (keysA m).Nodup → (keysA (insertZeros m reg)).Nodup := by
  induction reg with
  | nil => intro m h; exact h
  | cons e rest ih =>
    intro m h
    exact ih _ (keysA_insertA_nodup _ _ _ h)

theorem keysA_bumpCounts_nodup (ds : List (TaskId × List TaskId)) :
    ∀ m, (keysA m).Nodup → (keysA (bumpCounts m ds)).Nodup := by
  induction ds with
  | nil => intro m h; exact h
  | cons e rest ih =>
    intro m h
    exact ih _ (keysA_bumpCount_nodup _ _ _ h)

theorem inDegreeInit_keys_nodup (g : TaskGraph) : (keysA g.inDegreeInit).Nodup :=
  keysA_bumpCounts_nodup _ _ (keysA_insertZeros_nodup _ _ (by simp [keysA]))

theorem seed_lookup (g : TaskGraph) (t : TaskId)
    (ht : t ∈ (g.inDegreeInit.filter (fun e => e.2 == 0)).map (·.1)) :
    lookupA g.inDegreeInit t = some 0 := by
  rcases List.mem_map.1 ht with ⟨e, he, rfl⟩
  have hmem := List.mem_of_mem_filter he
  have hz : e.2 = 0 := by simpa using List.of_mem_filter he
  have hl := lookupA_of_mem_nodup (inDegreeInit_keys_nodup g)
    (show (e.1, e.2) ∈ g.inDegreeInit from by simpa using hmem)
  rw [hz] at hl
  exact hl

theorem seeds_nodup (g : TaskGraph) :
    ((g.inDegreeInit.filter (fun e => e.2 == 0)).map (·.1)).Nodup := by
  have hsub : ((g.inDegreeInit.filter (fun e => e.2 == 0)).map (·.1)).Sublist
      (keysA g.inDegreeInit) := (List.filter_sublist _).map _
  exact (inDegreeInit_keys_nodup g).sublist hsub

/-! ### The Kahn loop invariant -/

theorem filter_length_split (X sorted : List TaskId) (t : TaskId) (ht : t ∉ sorted) :
    (X.filter (fun p => !(decide (p ∈ sorted)))).length
      = (X.filter (fun p => !(decide (p ∈ sorted ++ [t])))).length + X.count t := by
  induction X with
  | nil => simp
  | cons x rest ih =>
    by_cases hx : x = t
    · subst hx
      have e1 : (x :: rest).filter (fun p => !(decide (p ∈ sorted)))
          = x :: rest.filter (fun p => !(decide (p ∈ sorted))) := by
        simp [List.filter_cons, ht]
      have e2 : (x :: rest).filter (fun p => !(decide (p ∈ sorted ++ [x])))
          = rest.filter (fun p => !(decide (p ∈ sorted ++ [x]))) := by
        simp [List.filter_cons]
      rw [e1, e2, List.length_cons, List.count_cons_self, ih]
      omega
    · have hxne : ¬ x = t := hx
      have hcnt : (x :: rest).count t = rest.count t := by
        have : ¬ t = x := fun hh => hx hh.symm
        simp [List.count_cons, this]
      rw [hcnt]
      by_cases hm : x ∈ sorted
      · have e1 : (x :: rest).filter (fun p => !(decide (p ∈ sorted)))
            = rest.filter (fun p => !(decide (p ∈ sorted))) := by
          simp [List.filter_cons, hm]
        have e2 : (x :: rest).filter (fun p => !(decide (p ∈ sorted ++ [t])))
            = rest.filter (fun p => !(decide (p ∈ sorted ++ [t]))) := by
          simp [List.filter_cons, hm]
        rw [e1, e2, ih]
      · have hm2 : x ∉ sorted ++ [t] := by
          intro hc
          rcases List.mem_append.1 hc with hc | hc
          · exact hm hc
          · exact hxne (by simpa using hc)
        have e1 : (x :: rest).filter (fun p => !(decide (p ∈ sorted)))
            = x :: rest.filter (fun p => !(decide (p ∈ sorted))) := by
          simp [List.filter_cons, hm]
        have e2 : (x :: rest).filter (fun p => !(decide (p ∈ sorted ++ [t])))
            = x :: rest.filter (fun p => !(decide (p ∈ sorted ++ [t]))) := by
          simp [List.filter_cons, hm, hxne]
        rw [e1, e2, List.length_cons, List.length_cons, ih]
        omega

theorem sortedTopo_append (deps : List (TaskId × List TaskId)) (sorted : List TaskId)
    (t : TaskId) (h : SortedTopo deps sorted)
    (hts : ∀ p ∈ depsOf deps t, p ∈ sorted) : SortedTopo deps (sorted ++ [t]) := by
  intro s₁ x s₂ heq p hp
  rcases s₂.eq_nil_or_concat with rfl | ⟨s₂', y, hy⟩
  · have h2 : sorted ++ [t] = s₁ ++ [x] := heq
    obtain ⟨hl, hr⟩ := List.append_inj' h2 rfl
    have hx : x = t := by
      have h3 := hr
      simp at h3
      exact h3.symm
    subst hl
    exact hts p (by rw [hx] at hp; exact hp)
  · subst hy
    have h2 : sorted ++ [t] = (s₁ ++ x :: s₂') ++ [y] := by
      rw [heq, List.concat_eq_append]
      simp
    obtain ⟨hl, _⟩ := List.append_inj' h2 rfl
    exact h s₁ x s₂' hl p hp

theorem mem_of_count_rev_pos (g : TaskGraph) (hcons : Consistent g) (t d : TaskId)
    (hd : d ∈ depsOf g.reverse_dependencies t) : t ∈ depsOf g.dependencies d := by
  by_contra hne
  have h0 : (depsOf g.dependencies d).count t = 0 := List.count_eq_zero.2 hne
  have h1 : (depsOf g.reverse_dependencies t).count d = 0 := by
    rw [← hcons d t]
    exact h0
  exact (List.count_eq_zero.1 h1) hd

theorem processDeps_inv (g : TaskGraph) (hI : BuildInv g)
    (sorted0 : List TaskId) (t : TaskId)
    (htopo : SortedTopo g.dependencies (sorted0 ++ [t]))
    (hts : ∀ p ∈ depsOf g.dependencies t, p ∈ sorted0)
    (htno : t ∉ sorted0) :
    ∀ rem indeg queue,
      PDInv g (sorted0 ++ [t]) indeg queue rem →
      (∀ d ∈ rem, t ∈ depsOf g.dependencies d) →
      PDInv g (sorted0 ++ [t]) (processDeps indeg queue rem).1
        (processDeps indeg queue rem).2 [] := by
  intro rem
  induction rem with
  | nil =>
    intro indeg queue h _
    exact h
  | cons d0 rem' ih =>
    intro indeg queue h hrem
    have htd0 : t ∈ depsOf g.dependencies d0 := hrem d0 (List.mem_cons_self _ _)
    have hd0deps : lookupA g.dependencies d0 ≠ none := by
      intro hnone
      rw [depsOf, hnone] at htd0
      simp at htd0
    have hd0keys : lookupA g.inDegreeInit d0 ≠ none := by
      rw [inDegreeInit_lookup g hI.depsKeysNodup]
      have hmem : d0 ∈ keysA g.dependencies := (mem_keysA_iff _ _).2 hd0deps
      simp [hmem]
    have hval := h.degVal d0 hd0keys
    have hcnt : (d0 :: rem').count d0 = rem'.count d0 + 1 := by simp [List.count_cons]
    have hgetd : (lookupA indeg d0).getD 0 =
        ((depsOf g.dependencies d0).filter
          (fun p => !(decide (p ∈ sorted0 ++ [t])))).length + (rem'.count d0 + 1) := by
      rw [hval, hcnt]
      rfl
    have hsub : (lookupA indeg d0).getD 0 - 1 =
        ((depsOf g.dependencies d0).filter
          (fun p => !(decide (p ∈ sorted0 ++ [t])))).length + rem'.count d0 := by
      rw [hgetd]
      omega
    -- the updated in-degree map satisfies the invariant for the shorter remainder
    have hdegSome' : ∀ x,
        lookupA (insertA indeg d0 ((lookupA indeg d0).getD 0 - 1)) x ≠ none ↔
          lookupA g.inDegreeInit x ≠ none := by
      intro x
      rw [lookupA_insertA]
      by_cases hx : d0 = x
      · subst hx
        simp [hd0keys]
      · simp only [if_neg hx]
        exact h.degSome x
    have hdegVal' : ∀ x, lookupA g.inDegreeInit x ≠ none →
        lookupA (insertA indeg d0 ((lookupA indeg d0).getD 0 - 1)) x =
          some (((depsOf g.dependencies x).filter
            (fun p => !(decide (p ∈ sorted0 ++ [t])))).length + rem'.count x) := by
      intro x hx
      rw [lookupA_insertA]
      by_cases hx0 : d0 = x
      · subst hx0
        rw [if_pos rfl, hsub]
      · rw [if_neg hx0]
        have := h.degVal x hx
        have hcx : (d0 :: rem').count x = rem'.count x := by
          have hne : ¬ x = d0 := fun hh => hx0 hh.symm
          simp [List.count_cons, hne]
        rw [this, hcx]
    by_cases hz : (lookupA indeg d0).getD 0 - 1 = 0
    · -- push branch: d0 reaches in-degree zero and joins the queue
      have hz2 : ((depsOf g.dependencies d0).filter
          (fun p => !(decide (p ∈ sorted0 ++ [t])))).length = 0 ∧ rem'.count d0 = 0 := by
        rw [hsub] at hz
        omega
      have hdone : ∀ p ∈ depsOf g.dependencies d0, p ∈ sorted0 ++ [t] := by
        intro p hp
        have hfil := List.length_eq_zero.1 hz2.1
        by_contra hpn
        have hkeep : (!(decide (p ∈ sorted0 ++ [t]))) = true := by simp [hpn]
        have : p ∈ (depsOf g.dependencies d0).filter
            (fun p => !(decide (p ∈ sorted0 ++ [t]))) := List.mem_filter.2 ⟨hp, hkeep⟩
        rw [hfil] at this
        simp at this
      have hd0nq : d0 ∉ queue := by
        intro hq
        have := (h.queueDone d0 hq).2
        rw [hcnt] at this
        omega
      have hd0ns : d0 ∉ sorted0 ++ [t] := by
        intro hs
        rcases List.mem_append.1 hs with hs | hs
        · obtain ⟨a, b, hab⟩ := List.append_of_mem hs
          have hsplit : sorted0 ++ [t] = a ++ d0 :: (b ++ [t]) := by
            rw [hab]
            simp
          have hda := htopo a d0 (b ++ [t]) hsplit t htd0
          have : t ∈ sorted0 := by
            rw [hab]
            exact List.mem_append.2 (Or.inl hda)
          exact htno this
        · have hd0t : d0 = t := by simpa using hs
          subst hd0t
          exact htno (hts d0 htd0)
      have hnodup' : ((sorted0 ++ [t]) ++ (queue ++ [d0])).Nodup := by
        have hn := h.nodup
        rw [show (sorted0 ++ [t]) ++ (queue ++ [d0])
            = ((sorted0 ++ [t]) ++ queue) ++ [d0] by simp]
        rw [List.nodup_append]
        refine ⟨hn, by simp, ?_⟩
        intro x hx
        simp only [List.mem_singleton]
        intro hxd
        subst hxd
        rcases List.mem_append.1 hx with hx | hx
        · exact hd0ns hx
        · exact hd0nq hx
      have hpd : PDInv g (sorted0 ++ [t])
          (insertA indeg d0 ((lookupA indeg d0).getD 0 - 1)) (queue ++ [d0]) rem' := by
        refine ⟨hnodup', ?_, hdegSome', hdegVal', ?_, h.topo⟩
        · intro x hx
          rcases List.mem_append.1 hx with hx | hx
          · exact h.keysSub x (List.mem_append.2 (Or.inl hx))
          · rcases List.mem_append.1 hx with hx | hx
            · exact h.keysSub x (List.mem_append.2 (Or.inr hx))
            · have : x = d0 := by simpa using hx
              subst this
              exact hd0keys
        · intro x hx
          rcases List.mem_append.1 hx with hx | hx
          · obtain ⟨h1, h2⟩ := h.queueDone x hx
            refine ⟨h1, ?_⟩
            have hxne : x ≠ d0 := by
              intro hh
              subst hh
              rw [hcnt] at h2
              omega
            have : ¬ x = d0 := hxne
            rw [show (d0 :: rem').count x = rem'.count x by simp [List.count_cons, this]] at h2
            exact h2
          · have : x = d0 := by simpa using hx
            subst this
            exact ⟨hdone, hz2.2⟩
      have hgoal := ih _ _ hpd (fun d hd => hrem d (List.mem_cons_of_mem _ hd))
      have hstep : processDeps indeg queue (d0 :: rem')
          = processDeps (insertA indeg d0 ((lookupA indeg d0).getD 0 - 1))
              (queue ++ [d0]) rem' := by
        rw [processDeps]
        simp only [if_pos hz]
      rw [hstep]
      exact hgoal
    · -- no push: the counter stays positive
      have hpd : PDInv g (sorted0 ++ [t])
          (insertA indeg d0 ((lookupA indeg d0).getD 0 - 1)) queue rem' := by
        refine ⟨?_, ?_, hdegSome', hdegVal', ?_, h.topo⟩
        · exact h.nodup
        · exact h.keysSub
        · intro x hx
          obtain ⟨h1, h2⟩ := h.queueDone x hx
          refine ⟨h1, ?_⟩
          have hxne : ¬ x = d0 := by
            intro hh
            subst hh
            rw [hcnt] at h2
            omega
          rw [show (d0 :: rem').count x = rem'.count x by simp [List.count_cons, hxne]] at h2
          exact h2
      have hgoal := ih _ _ hpd (fun d hd => hrem d (List.mem_cons_of_mem _ hd))
      have hstep : processDeps indeg queue (d0 :: rem')
          = processDeps (insertA indeg d0 ((lookupA indeg d0).getD 0 - 1))
              queue rem' := by
        rw [processDeps]
        simp only [if_neg hz]
      rw [hstep]
      exact hgoal

theorem kahnInv_step (g : TaskGraph) (hI : BuildInv g)
    (indeg : List (TaskId × Nat)) (t : TaskId) (qs sorted : List TaskId)
    (h : KahnInv g indeg (t :: qs) sorted) :
    KahnInv g (processDeps indeg qs (depsOf g.reverse_dependencies t)).1
      (processDeps indeg qs (depsOf g.reverse_dependencies t)).2 (sorted ++ [t]) := by
  have hnod : (sorted ++ t :: qs).Nodup := h.nodup
  have htns : t ∉ sorted := by
    rw [List.nodup_append] at hnod
    exact fun hmem => hnod.2.2 hmem (List.mem_cons_self _ _)
  have hts : ∀ p ∈ depsOf g.dependencies t, p ∈ sorted :=
    h.queueDone t (List.mem_cons_self _ _)
  have htopo' : SortedTopo g.dependencies (sorted ++ [t]) :=
    sortedTopo_append _ _ _ h.topo hts
  have happ : (sorted ++ [t]) ++ qs = sorted ++ (t :: qs) := by simp
  have hpd0 : PDInv g (sorted ++ [t]) indeg qs (depsOf g.reverse_dependencies t) := by
    refine ⟨?_, ?_, h.degSome, ?_, ?_, htopo'⟩
    · rw [happ]
      exact h.nodup
    · intro x hx
      apply h.keysSub
      rw [happ] at hx
      exact hx
    · intro x hx
      have hv := h.degVal x hx
      rw [hv]
      congr 1
      have hsplit := filter_length_split (depsOf g.dependencies x) sorted t htns
      have hcc : (depsOf g.dependencies x).count t
          = (depsOf g.reverse_dependencies t).count x := hI.cons x t
      rw [hsplit, hcc]
    · intro x hx
      have h1 := h.queueDone x (List.mem_cons_of_mem _ hx)
      refine ⟨fun p hp => List.mem_append.2 (Or.inl (h1 p hp)), ?_⟩
      have htnd : t ∉ depsOf g.dependencies x := fun hmem => htns (h1 t hmem)
      have h0 : (depsOf g.dependencies x).count t = 0 := List.count_eq_zero.2 htnd
      rw [← hI.cons x t]
      exact h0
  have hfin := processDeps_inv g hI sorted t htopo' hts htns
    (depsOf g.reverse_dependencies t) indeg qs hpd0
    (fun d hd => mem_of_count_rev_pos g hI.cons t d hd)
  refine ⟨hfin.nodup, hfin.keysSub, hfin.degSome, ?_, ?_, hfin.topo⟩
  · intro x hx
    have hv := hfin.degVal x hx
    simpa using hv
  · intro x hx
    exact (hfin.queueDone x hx).1

theorem kahnInv_init (g : TaskGraph) (hI : BuildInv g) :
    KahnInv g g.inDegreeInit
      ((g.inDegreeInit.filter (fun e => e.2 == 0)).map (·.1)) [] := by
  refine ⟨?_, ?_, fun t => Iff.rfl, ?_, ?_, ?_⟩
  · simpa using seeds_nodup g
  · intro t ht
    have ht' : t ∈ (g.inDegreeInit.filter (fun e => e.2 == 0)).map (·.1) := by
      simpa using ht
    simp [seed_lookup g t ht']
  · intro t ht
    have hfil : (depsOf g.dependencies t).filter
        (fun p => !(decide (p ∈ ([] : List TaskId)))) = depsOf g.dependencies t := by
      apply List.filter_eq_self.2
      intro a _
      simp
    rw [hfil, inDegreeInit_lookup g hI.depsKeysNodup]
    rw [inDegreeInit_lookup g hI.depsKeysNodup] at ht
    by_cases hm : t ∈ registryKeys g ∨ t ∈ keysA g.dependencies
    · simp [hm]
    · rw [if_neg hm] at ht
      simp at ht
  · intro t ht p hp
    have hl := seed_lookup g t (by simpa using ht)
    rw [inDegreeInit_lookup g hI.depsKeysNodup] at hl
    by_cases hm : t ∈ registryKeys g ∨ t ∈ keysA g.dependencies
    · rw [if_pos hm] at hl
      have hlen : (depsOf g.dependencies t).length = 0 := by
        simpa using hl
      rw [List.length_eq_zero.1 hlen] at hp
      simp at hp
    · rw [if_neg hm] at hl
      simp at hl
  · intro s₁ x s₂ heq
    cases s₁ <;> simp at heq

theorem kahnLoop_inv (g : TaskGraph) (hI : BuildInv g) :
    ∀ fuel indeg queue sorted, KahnInv g indeg queue sorted →
      (kahnLoop g.reverse_dependencies fuel indeg queue sorted).Nodup ∧
      (∀ x ∈ kahnLoop g.reverse_dependencies fuel indeg queue sorted,
        lookupA g.inDegreeInit x ≠ none) ∧
      SortedTopo g.dependencies (kahnLoop g.reverse_dependencies fuel indeg queue sorted) := by
  intro fuel
  induction fuel with
  | zero =>
    intro indeg queue sorted h
    refine ⟨h.nodup.of_append_left, ?_, h.topo⟩
    intro x hx
    exact h.keysSub x (List.mem_append.2 (Or.inl hx))
  | succ fuel ih =>
    intro indeg queue sorted h
    cases queue with
    | nil =>
      refine ⟨by simpa using h.nodup, ?_, h.topo⟩
      intro x hx
      exact h.keysSub x (List.mem_append.2 (Or.inl hx))
    | cons t qs =>
      exact ih _ _ _ (kahnInv_step g hI indeg t qs sorted h)

theorem topological_sort_props (g : TaskGraph) (hI : BuildInv g) :
    g.topological_sort.Nodup ∧
      (∀ x ∈ g.topological_sort, lookupA g.inDegreeInit x ≠ none) ∧
      SortedTopo g.dependencies g.topological_sort := by
  have h := kahnLoop_inv g hI g.kahnFuel g.inDegreeInit
    ((g.inDegreeInit.filter (fun e => e.2 == 0)).map (·.1)) [] (kahnInv_init g hI)
  unfold TaskGraph.topological_sort
  exact h

/-! ### The level map of group_tasks -/

theorem computeLevelsAux_append (deps : List (TaskId × List TaskId))
    (s1 s2 : List TaskId) :
    ∀ lv a, computeLevelsAux deps lv a (s1 ++ s2)
      = computeLevelsAux deps (computeLevelsAux deps lv a s1).1
          (computeLevelsAux deps lv a s1).2 s2 := by
  induction s1 with
  | nil => intro lv a; rfl
  | cons x rest ih =>
    intro lv a
    rw [List.cons_append]
    simp only [computeLevelsAux]
    rw [ih]

theorem computeLevelsAux_lookup_not_mem (deps : List (TaskId × List TaskId))
    (s : List TaskId) :
    ∀ lv a t, t ∉ s → lookupA (computeLevelsAux deps lv a s).1 t = lookupA lv t := by
  induction s with
  | nil => intro lv a t _; rfl
  | cons x rest ih =>
    intro lv a t ht
    simp only [computeLevelsAux]
    rw [ih _ _ _ (fun h => ht (List.mem_cons_of_mem _ h)), lookupA_insertA]
    have hx : ¬ x = t := fun h => ht (h ▸ List.mem_cons_self _ _)
    simp [hx]

theorem computeLevelsAux_lookup_last (deps : List (TaskId × List TaskId))
    (s1 : List TaskId) (t : TaskId) (s2 : List TaskId) (ht2 : t ∉ s2) :
    ∀ lv a, lookupA (computeLevelsAux deps lv a (s1 ++ t :: s2)).1 t
      = some (levelOfTask deps (computeLevelsAux deps lv a s1).1 t) := by
  intro lv a
  rw [computeLevelsAux_append]
  simp only [computeLevelsAux]
  rw [computeLevelsAux_lookup_not_mem _ _ _ _ _ ht2, lookupA_insertA]
  simp

theorem computeLevelsAux_lookup_mem (deps : List (TaskId × List TaskId))
    (s : List TaskId) :
    ∀ lv a t, t ∈ s → lookupA (computeLevelsAux deps lv a s).1 t ≠ none := by
  induction s with
  | nil =>
    intro lv a t ht
    simp at ht
  | cons x rest ih =>
    intro lv a t ht
    by_cases hr : t ∈ rest
    · exact ih _ _ _ hr
    · have hx : t = x := by
        rcases List.mem_cons.1 ht with h | h
        · exact h
        · exact absurd h hr
      subst hx
      simp only [computeLevelsAux]
      rw [computeLevelsAux_lookup_not_mem _ _ _ _ _ hr, lookupA_insertA]
      simp

theorem computeLevelsAux_keys_nodup (deps : List (TaskId × List TaskId))
    (s : List TaskId) :
    ∀ lv a, (keysA lv).Nodup → (keysA (computeLevelsAux deps lv a s).1).Nodup := by
  induction s with
  | nil => intro lv a h; exact h
  | cons x rest ih =>
    intro lv a h
    exact ih _ _ (keysA_insertA_nodup _ _ _ h)

theorem mem_computeLevelsAux (deps : List (TaskId × List TaskId)) (s : List TaskId) :
    ∀ lv a e, e ∈ (computeLevelsAux deps lv a s).1 → e ∈ lv ∨ e.1 ∈ s := by
  induction s with
  | nil => intro lv a e he; exact Or.inl he
  | cons x rest ih =>
    intro lv a e he
    rcases ih _ _ _ he with h | h
    · rcases mem_insertA h with h2 | h2
      · exact Or.inl h2
      · subst h2
        exact Or.inr (List.mem_cons_self _ _)
    · exact Or.inr (List.mem_cons_of_mem _ h)

theorem computeLevelsAux_max_mono (deps : List (TaskId × List TaskId)) (s : List TaskId) :
    ∀ lv a, a ≤ (computeLevelsAux deps lv a s).2 := by
  induction s with
  | nil => intro lv a; exact Nat.le_refl a
  | cons x rest ih =>
    intro lv a
    exact Nat.le_trans (Nat.le_max_left a _) (ih _ _)

theorem computeLevelsAux_val_le (deps : List (TaskId × List TaskId)) (s : List TaskId) :
    ∀ lv a, (∀ e ∈ lv, e.2 ≤ a) →
      ∀ e ∈ (computeLevelsAux deps lv a s).1, e.2 ≤ (computeLevelsAux deps lv a s).2 := by
  induction s with
  | nil =>
    intro lv a h e he
    exact h e he
  | cons x rest ih =>
    intro lv a h
    apply ih
    intro e he
    rcases mem_insertA he with h2 | h2
    · exact Nat.le_trans (h e h2) (Nat.le_max_left _ _)
    · subst h2
      exact Nat.le_max_right _ _

theorem foldl_max_base_le (f : TaskId → Nat) (ds : List TaskId) :
    ∀ b, b ≤ ds.foldl (fun m d => max m (f d)) b := by
  induction ds with
  | nil => intro b; exact Nat.le_refl b
  | cons x rest ih =>
    intro b
    exact Nat.le_trans (Nat.le_max_left b (f x)) (ih _)

theorem le_foldl_max (f : TaskId → Nat) (ds : List TaskId) (p : TaskId) (hp : p ∈ ds) :
    ∀ b, f p ≤ ds.foldl (fun m d => max m (f d)) b := by
  induction ds with
  | nil => simp at hp
  | cons x rest ih =>
    intro b
    rcases List.mem_cons.1 hp with h | h
    · subst h
      exact Nat.le_trans (Nat.le_max_right b (f p)) (foldl_max_base_le f rest _)
    · exact ih h _

theorem foldl_max_congr (f f2 : TaskId → Nat) (ds : List TaskId)
    (h : ∀ p ∈ ds, f p = f2 p) :
    ∀ b, ds.foldl (fun m d => max m (f d)) b = ds.foldl (fun m d => max m (f2 d)) b := by
  induction ds with
  | nil => intro b; rfl
  | cons x rest ih =>
    intro b
    rw [List.foldl_cons, List.foldl_cons, h x (List.mem_cons_self _ _)]
    exact ih (fun p hp => h p (List.mem_cons_of_mem _ hp)) _

theorem levelOfTask_congr (deps : List (TaskId × List TaskId))
    (lv lv2 : List (TaskId × Nat)) (t : TaskId)
    (h : ∀ p ∈ depsOf deps t, lookupA lv p = lookupA lv2 p) :
    levelOfTask deps lv t = levelOfTask deps lv2 t := by
  unfold levelOfTask
  cases hd : lookupA deps t with
  | none => rfl
  | some ds =>
    have hds : ∀ p ∈ ds, ((lookupA lv p).getD 0 + 1) = ((lookupA lv2 p).getD 0 + 1) := by
      intro p hp
      rw [h p (by rw [depsOf, hd]; simpa using hp)]
    exact foldl_max_congr _ _ ds hds 0

theorem nodup_split_not_mem {s s1 s2 : List TaskId} {t : TaskId}
    (hnd : s.Nodup) (h : s = s1 ++ t :: s2) :
    t ∉ s1 ∧ t ∉ s2 ∧ ∀ p ∈ s1, p ∉ t :: s2 := by
  subst h
  rw [List.nodup_append] at hnd
  obtain ⟨h1, h2, hdisj⟩ := hnd
  rw [List.nodup_cons] at h2
  exact ⟨fun hh => hdisj hh (List.mem_cons_self _ _), h2.1,
    fun p hp hmem => hdisj hp hmem⟩

theorem computeLevels_recurrence (deps : List (TaskId × List TaskId)) (s : List TaskId)
    (hnd : s.Nodup) (htopo : SortedTopo deps s) (t : TaskId) (ht : t ∈ s) :
    lookupA (computeLevels deps s) t = some (levelOfTask deps (computeLevels deps s) t) := by
  obtain ⟨s1, s2, hsplit⟩ := List.append_of_mem ht
  obtain ⟨hns1, hns2, hdisj⟩ := nodup_split_not_mem hnd hsplit
  have hlast : lookupA (computeLevels deps s) t
      = some (levelOfTask deps (computeLevelsAux deps [] 0 s1).1 t) := by
    rw [computeLevels, hsplit]
    exact computeLevelsAux_lookup_last deps s1 t s2 hns2 [] 0
  rw [hlast]
  congr 1
  apply levelOfTask_congr
  intro p hp
  have hps1 : p ∈ s1 := htopo s1 t s2 hsplit p hp
  have hpn : p ∉ t :: s2 := hdisj p hps1
  rw [computeLevels, hsplit, computeLevelsAux_append]
  rw [computeLevelsAux_lookup_not_mem _ _ _ _ _ hpn]

/-- Position lemmas used for the strong induction on topological position. -/
theorem posOf_append_cons (s1 : List TaskId) (t : TaskId) (s2 : List TaskId)
    (h : t ∉ s1) : posOf (s1 ++ t :: s2) t = s1.length := by
  induction s1 with
  | nil => simp [posOf]
  | cons y rest ih =>
    have hy : ¬ y = t := fun hh => h (hh ▸ List.mem_cons_self _ _)
    rw [List.cons_append, posOf]
    simp only [hy, if_false]
    rw [ih (fun hh => h (List.mem_cons_of_mem _ hh))]
    rfl

theorem posOf_lt_of_mem_prefix (s1 rest : List TaskId) (p : TaskId) (hp : p ∈ s1) :
    posOf (s1 ++ rest) p < s1.length := by
  induction s1 with
  | nil => simp at hp
  | cons y r ih =>
    by_cases hy : y = p
    · rw [List.cons_append, posOf]
      simp [hy]
    · rw [List.cons_append, posOf]
      simp only [hy, if_false]
      have hpr : p ∈ r := by
        rcases List.mem_cons.1 hp with h | h
        · exact absurd h.symm hy
        · exact h
      have := ih hpr
      simp only [List.length_cons]
      omega

theorem getD_append_cons_length (s1 : List TaskId) (x : TaskId) (s2 : List TaskId) :
    (s1 ++ x :: s2).getD s1.length 0 = x := by
  induction s1 with
  | nil => rfl
  | cons y rest ih => simpa using ih

theorem take_append_cons_length (s1 : List TaskId) (x : TaskId) (s2 : List TaskId) :
    (s1 ++ x :: s2).take s1.length = s1 := by
  induction s1 with
  | nil => rfl
  | cons y rest ih => simpa using ih

theorem isTopoOrder_split (deps : List (TaskId × List TaskId)) (s : List TaskId)
    (h : IsTopoOrder deps s) : SortedTopo deps s := by
  intro s1 x s2 heq p hp
  have hget := getD_append_cons_length s1 x s2
  have htake := take_append_cons_length s1 x s2
  have hlen : s1.length < s.length := by
    rw [heq]
    simp only [List.length_append, List.length_cons]
    omega
  have h2 := h.2 s1.length hlen p
  rw [heq, hget, htake] at h2
  exact h2 hp

theorem computeLevels_not_mem (deps : List (TaskId × List TaskId)) (s : List TaskId)
    (t : TaskId) (ht : t ∉ s) : lookupA (computeLevels deps s) t = none := by
  rw [computeLevels, computeLevelsAux_lookup_not_mem _ _ _ _ _ ht]
  rfl

theorem computeLevels_order_indep (deps : List (TaskId × List TaskId))
    (s s' : List TaskId) (h : IsTopoOrder deps s) (h' : IsTopoOrder deps s')
    (hmem : ∀ x, x ∈ s ↔ x ∈ s') (t : TaskId) :
    lookupA (computeLevels deps s) t = lookupA (computeLevels deps s') t := by
  have hst := isTopoOrder_split deps s h
  have hst' := isTopoOrder_split deps s' h'
  have main : ∀ n, ∀ u, posOf s u < n →
      lookupA (computeLevels deps s) u = lookupA (computeLevels deps s') u := by
    intro n
    induction n with
    | zero =>
      intro u hlt
      omega
    | succ n ih =>
      intro u hlt
      by_cases hus : u ∈ s
      · have hus' : u ∈ s' := (hmem u).1 hus
        rw [computeLevels_recurrence deps s h.1 hst u hus,
            computeLevels_recurrence deps s' h'.1 hst' u hus']
        congr 1
        apply levelOfTask_congr
        intro p hp
        obtain ⟨s1, s2, hsplit⟩ := List.append_of_mem hus
        obtain ⟨hns1, _, _⟩ := nodup_split_not_mem h.1 hsplit
        have hps1 : p ∈ s1 := hst s1 u s2 hsplit p hp
        have hpos_u : posOf s u = s1.length := by
          rw [hsplit]
          exact posOf_append_cons s1 u s2 hns1
        have hpos_p : posOf s p < s1.length := by
          rw [hsplit]
          exact posOf_lt_of_mem_prefix s1 _ p hps1
        apply ih
        omega
      · have hus' : u ∉ s' := fun hh => hus ((hmem u).2 hh)
        rw [computeLevels_not_mem deps s u hus, computeLevels_not_mem deps s' u hus']
  exact main (posOf s t + 1) t (Nat.lt_succ_self _)

theorem insertA_not_mem_keys {α : Type} (m : List (TaskId × α)) (k : TaskId) (v : α)
    (h : k ∉ keysA m) : insertA m k v = m ++ [(k, v)] := by
  induction m with
  | nil => rfl
  | cons e rest ih =>
    obtain ⟨k0, v0⟩ := e
    simp only [keysA, List.map_cons, List.mem_cons] at h
    push_neg at h
    have h0 : ¬ k0 = k := fun hh => h.1 hh.symm
    simp only [insertA, if_neg h0, List.cons_append]
    rw [ih (by simpa [keysA] using h.2)]

theorem computeLevelsAux_keys (deps : List (TaskId × List TaskId)) (s : List TaskId) :
    ∀ lv a, (∀ t ∈ s, t ∉ keysA lv) → s.Nodup →
      keysA (computeLevelsAux deps lv a s).1 = keysA lv ++ s := by
  induction s with
  | nil =>
    intro lv a _ _
    simp [computeLevelsAux]
  | cons x rest ih =>
    intro lv a hfresh hnd
    rw [List.nodup_cons] at hnd
    simp only [computeLevelsAux]
    rw [insertA_not_mem_keys _ _ _ (hfresh x (List.mem_cons_self _ _))]
    rw [ih _ _ ?_ hnd.2]
    · simp [keysA]
    · intro t htr
      simp only [keysA, List.map_append, List.map_cons, List.map_nil, List.mem_append]
      rintro (hm | hm)
      · exact hfresh t (List.mem_cons_of_mem _ htr) hm
      · have : t = x := by simpa using hm
        exact hnd.1 (this ▸ htr)

theorem computeLevels_keys (deps : List (TaskId × List TaskId)) (s : List TaskId)
    (hnd : s.Nodup) : keysA (computeLevels deps s) = s := by
  rw [computeLevels, computeLevelsAux_keys deps s [] 0 (by simp [keysA]) hnd]
  simp [keysA]

theorem level_lt_of_dep (deps : List (TaskId × List TaskId)) (s : List TaskId)
    (hnd : s.Nodup) (htopo : SortedTopo deps s) (d p : TaskId)
    (hd : d ∈ s) (hp : p ∈ depsOf deps d) :
    ∃ ld lp, lookupA (computeLevels deps s) d = some ld ∧
      lookupA (computeLevels deps s) p = some lp ∧ lp < ld := by
  obtain ⟨s1, s2, hsplit⟩ := List.append_of_mem hd
  have hps1 : p ∈ s1 := htopo s1 d s2 hsplit p hp
  have hps : p ∈ s := by
    rw [hsplit]
    exact List.mem_append.2 (Or.inl hps1)
  have hrec := computeLevels_recurrence deps s hnd htopo d hd
  cases hlp : lookupA (computeLevels deps s) p with
  | none => exact absurd hlp (computeLevelsAux_lookup_mem deps s [] 0 p hps)
  | some lp =>
    refine ⟨levelOfTask deps (computeLevels deps s) d, lp, hrec, rfl, ?_⟩
    unfold levelOfTask
    cases hdd : lookupA deps d with
    | none =>
      rw [depsOf, hdd] at hp
      simp at hp
    | some ds =>
      have hpds : p ∈ ds := by
        rw [depsOf, hdd] at hp
        simpa using hp
      have hle := le_foldl_max
        (fun q => (lookupA (computeLevels deps s) q).getD 0 + 1) ds p hpds 0
      rw [hlp] at hle
      simp only [Option.getD_some] at hle
      exact Nat.lt_of_succ_le hle

/-! ### Distributing level-map entries over the wave buckets -/

theorem setPush_length (gr : List (List TaskId)) :
    ∀ i t, (setPush gr i t).length = gr.length := by
  induction gr with
  | nil => intro i t; rfl
  | cons b bs ih =>
    intro i t
    cases i with
    | zero => rfl
    | succ j => simp [setPush, ih]

theorem setPush_oob (gr : List (List TaskId)) :
    ∀ i t, gr.length ≤ i → setPush gr i t = gr := by
  induction gr with
  | nil => intro i t _; rfl
  | cons b bs ih =>
    intro i t h
    cases i with
    | zero => simp at h
    | succ j =>
      simp only [setPush]
      rw [ih j t (by simpa using h)]

theorem setPush_get_ne (gr : List (List TaskId)) :
    ∀ i j t, i ≠ j → (setPush gr i t).getD j [] = gr.getD j [] := by
  induction gr with
  | nil => intro i t j _; rfl
  | cons b bs ih =>
    intro i j t h
    cases i with
    | zero =>
      cases j with
      | zero => exact absurd rfl h
      | succ j2 => rfl
    | succ i2 =>
      cases j with
      | zero => rfl
      | succ j2 =>
        simp only [setPush, List.getD_cons_succ]
        exact ih i2 j2 t (fun hh => h (by rw [hh]))

theorem setPush_get_self (gr : List (List TaskId)) :
    ∀ i t, i < gr.length → (setPush gr i t).getD i [] = gr.getD i [] ++ [t] := by
  induction gr with
  | nil => intro i t h; simp at h
  | cons b bs ih =>
    intro i t h
    cases i with
    | zero => simp [setPush]
    | succ j =>
      simp only [setPush, List.getD_cons_succ]
      exact ih j t (by simpa using h)

theorem mem_getD_flatten (l : List (List TaskId)) :
    ∀ j x, x ∈ l.getD j [] → x ∈ l.flatten := by
  induction l with
  | nil => intro j x h; simp at h
  | cons b bs ih =>
    intro j x h
    cases j with
    | zero =>
      simp only [List.getD_cons_zero] at h
      exact List.mem_flatten.2 ⟨b, List.mem_cons_self _ _, h⟩
    | succ j2 =>
      simp only [List.getD_cons_succ] at h
      have := ih j2 x h
      rcases List.mem_flatten.1 this with ⟨b2, hb2, hxb2⟩
      exact List.mem_flatten.2 ⟨b2, List.mem_cons_of_mem _ hb2, hxb2⟩

theorem flatten_mem_exists (l : List (List TaskId)) :
    ∀ x, x ∈ l.flatten → ∃ j, j < l.length ∧ x ∈ l.getD j [] := by
  induction l with
  | nil => intro x h; simp at h
  | cons b bs ih =>
    intro x h
    rw [List.flatten_cons, List.mem_append] at h
    rcases h with h | h
    · exact ⟨0, by simp, by simpa using h⟩
    · obtain ⟨j, hj, hx⟩ := ih x h
      exact ⟨j + 1, by simpa using hj, by simpa using hx⟩

theorem flatten_setPush_count (gr : List (List TaskId)) :
    ∀ i t x, i < gr.length →
      ((setPush gr i t).flatten).count x
        = (gr.flatten).count x + if x = t then 1 else 0 := by
  induction gr with
  | nil => intro i t x h; simp at h
  | cons b bs ih =>
    intro i t x h
    cases i with
    | zero =>
      simp only [setPush, List.flatten_cons, List.count_append]
      by_cases hx : x = t <;> simp [List.count_cons, hx] <;> omega
    | succ j =>
      simp only [setPush, List.flatten_cons, List.count_append]
      rw [ih j t x (by simpa using h)]
      omega

theorem fillGroups_length (entries : List (TaskId × Nat)) :
    ∀ gr, (fillGroups gr entries).length = gr.length := by
  induction entries with
  | nil => intro gr; rfl
  | cons e rest ih =>
    intro gr
    rw [fillGroups, ih, setPush_length]

theorem fillGroups_count (entries : List (TaskId × Nat)) :
    ∀ gr x, (∀ e ∈ entries, e.2 < gr.length) →
      ((fillGroups gr entries).flatten).count x
        = (gr.flatten).count x + (entries.map Prod.fst).count x := by
  induction entries with
  | nil =>
    intro gr x _
    simp [fillGroups]
  | cons e rest ih =>
    intro gr x h
    rw [fillGroups]
    rw [ih _ _ (fun e' he' => by
      rw [setPush_length]
      exact h e' (List.mem_cons_of_mem _ he'))]
    rw [flatten_setPush_count _ _ _ _ (h e (List.mem_cons_self _ _))]
    simp only [List.map_cons, List.count_cons]
    by_cases hx : x = e.1
    · simp only [hx, if_pos rfl, beq_self_eq_true, if_true]
      omega
    · have hx2 : (e.1 == x) = false := beq_eq_false_iff_ne.2 (fun hh => hx hh.symm)
      simp only [hx, if_neg hx, hx2, Bool.false_eq_true, if_false]
      omega

theorem fillGroups_mono (entries : List (TaskId × Nat)) :
    ∀ gr x j, x ∈ gr.getD j [] → x ∈ (fillGroups gr entries).getD j [] := by
  induction entries with
  | nil => intro gr x j h; exact h
  | cons e rest ih =>
    intro gr x j h
    rw [fillGroups]
    apply ih
    by_cases hij : e.2 = j
    · subst hij
      by_cases hlen : e.2 < gr.length
      · rw [setPush_get_self _ _ _ hlen]
        exact List.mem_append.2 (Or.inl h)
      · rw [setPush_oob _ _ _ (Nat.le_of_not_lt hlen)]
        exact h
    · rw [setPush_get_ne _ _ _ _ hij]
      exact h

theorem mem_fillGroups (entries : List (TaskId × Nat)) :
    ∀ gr x j, x ∈ (fillGroups gr entries).getD j [] →
      x ∈ gr.getD j [] ∨ (x, j) ∈ entries := by
  induction entries with
  | nil => intro gr x j h; exact Or.inl h
  | cons e rest ih =>
    intro gr x j h
    rw [fillGroups] at h
    rcases ih _ _ _ h with h2 | h2
    · by_cases hij : e.2 = j
      · subst hij
        by_cases hlen : e.2 < gr.length
        · rw [setPush_get_self _ _ _ hlen] at h2
          rcases List.mem_append.1 h2 with h3 | h3
          · exact Or.inl h3
          · have hx : x = e.1 := by simpa using h3
            subst hx
            exact Or.inr (List.mem_cons_self _ _)
        · rw [setPush_oob _ _ _ (Nat.le_of_not_lt hlen)] at h2
          exact Or.inl h2
      · rw [setPush_get_ne _ _ _ _ hij] at h2
        exact Or.inl h2
    · exact Or.inr (List.mem_cons_of_mem _ h2)

theorem fillGroups_mem_of_entry (entries : List (TaskId × Nat)) :
    ∀ gr x j, (x, j) ∈ entries → j < gr.length →
      x ∈ (fillGroups gr entries).getD j [] := by
  induction entries with
  | nil => intro gr x j h _; simp at h
  | cons e rest ih =>
    intro gr x j hmem hlen
    rw [fillGroups]
    rcases List.mem_cons.1 hmem with he | he
    · apply fillGroups_mono
      have hj : e.2 = j := by rw [← he]
      have hx : e.1 = x := by rw [← he]
      subst hj
      rw [setPush_get_self _ _ _ hlen, hx]
      simp
    · exact ih _ _ _ he (by rwa [setPush_length])

theorem getD_replicate_nil (n j : Nat) :
    (List.replicate n ([] : List TaskId)).getD j [] = [] := by
  induction n generalizing j with
  | zero => cases j <;> rfl
  | succ m ih =>
    cases j with
    | zero => rfl
    | succ j2 => simpa [List.replicate] using ih j2

theorem flatten_replicate_nil (n : Nat) :
    (List.replicate n ([] : List TaskId)).flatten = [] := by
  induction n with
  | zero => rfl
  | succ m ih => simpa [List.replicate] using ih

/-! ### The dispatch loop of execute -/

theorem removeA_none {α : Type} (m : List (TaskId × α)) (k : TaskId)
    (h : lookupA m k = none) : (removeA m k).1 = m := by
  induction m with
  | nil => rfl
  | cons e rest ih =>
    obtain ⟨k0, v0⟩ := e
    by_cases h0 : k0 = k
    · subst h0
      simp [lookupA] at h
    · have hrec : lookupA rest k = none := by
        simpa [lookupA, h0] using h
      simp [removeA, h0, ih hrec]

theorem runWaveCore_fst_sublist (grp : List TaskId) :
    ∀ reg, ((runWaveCore reg grp).1).Sublist reg := by
  induction grp with
  | nil => intro reg; exact List.Sublist.refl reg
  | cons tid rest ih =>
    intro reg
    simp only [runWaveCore]
    cases hr : (removeA reg tid).2 with
    | none =>
      exact (ih _).trans (removeA_fst_sublist reg tid)
    | some task =>
      exact (ih _).trans (removeA_fst_sublist reg tid)

theorem runWaveCore_submitted_subset (grp : List TaskId) :
    ∀ reg x, x ∈ (runWaveCore reg grp).2.1 → x ∈ keysA reg := by
  induction grp with
  | nil =>
    intro reg x h
    simp [runWaveCore] at h
  | cons tid rest ih =>
    intro reg x h
    simp only [runWaveCore] at h
    cases hr : (removeA reg tid).2 with
    | none =>
      rw [hr] at h
      have := ih _ x h
      have hsub : (keysA (removeA reg tid).1).Sublist (keysA reg) :=
        (removeA_fst_sublist reg tid).map _
      exact hsub.mem this
    | some task =>
      rw [hr] at h
      rcases List.mem_cons.1 h with h2 | h2
      · subst h2
        rw [removeA_snd] at hr
        exact (mem_keysA_iff _ _).2 (by simp [hr])
      · have := ih _ x h2
        have hsub : (keysA (removeA reg tid).1).Sublist (keysA reg) :=
          (removeA_fst_sublist reg tid).map _
        exact hsub.mem this

theorem runWaveCore_submitted_len (grp : List TaskId) :
    ∀ reg, (runWaveCore reg grp).2.1.length ≤ grp.length := by
  induction grp with
  | nil => intro reg; simp [runWaveCore]
  | cons tid rest ih =>
    intro reg
    simp only [runWaveCore]
    cases hr : (removeA reg tid).2 with
    | none =>
      exact Nat.le_trans (ih _) (by simp)
    | some task =>
      simpa using ih _

theorem runWaveCore_signals_le (grp : List TaskId) :
    ∀ reg, (runWaveCore reg grp).2.2 ≤ (runWaveCore reg grp).2.1.length := by
  induction grp with
  | nil => intro reg; simp [runWaveCore]
  | cons tid rest ih =>
    intro reg
    simp only [runWaveCore]
    cases hr : (removeA reg tid).2 with
    | none => exact ih _
    | some task =>
      have hle := ih ((removeA reg tid).1)
      have hone : (if task.panics then 0 else 1) ≤ 1 := by
        cases task.panics <;> simp
      simp only [List.length_cons]
      omega

theorem runWaveCore_miss (grp : List TaskId) (d : TaskId) :
    ∀ reg, d ∉ keysA reg → d ∈ grp →
      (runWaveCore reg grp).2.1.length < grp.length := by
  induction grp with
  | nil =>
    intro reg _ h
    simp at h
  | cons tid rest ih =>
    intro reg hk hg
    simp only [runWaveCore]
    by_cases htid : tid = d
    · subst htid
      have hnone : lookupA reg tid = none := by
        by_contra hc
        exact hk ((mem_keysA_iff _ _).2 hc)
      have hr : (removeA reg tid).2 = none := by rw [removeA_snd]; exact hnone
      rw [hr]
      exact Nat.lt_of_le_of_lt (runWaveCore_submitted_len rest _) (by simp)
    · have hg2 : d ∈ rest := by
        rcases List.mem_cons.1 hg with h | h
        · exact absurd h.symm htid
        · exact h
      have hk2 : d ∉ keysA (removeA reg tid).1 := by
        intro hmem
        exact hk (((removeA_fst_sublist reg tid).map _).mem hmem)
      cases hr : (removeA reg tid).2 with
      | none =>
        exact Nat.lt_of_lt_of_le (ih _ hk2 hg2) (by simp)
      | some task =>
        have := ih _ hk2 hg2
        simp only [List.length_cons]
        omega

theorem runWaveCore_lookup (grp : List TaskId) :
    ∀ reg x, (keysA reg).Nodup →
      lookupA (runWaveCore reg grp).1 x
        = if x ∈ grp then none else lookupA reg x := by
  induction grp with
  | nil =>
    intro reg x _
    simp [runWaveCore]
  | cons tid rest ih =>
    intro reg x hnd
    have hndr : (keysA (removeA reg tid).1).Nodup :=
      hnd.sublist ((removeA_fst_sublist reg tid).map _)
    simp only [runWaveCore]
    have hmain : lookupA (runWaveCore (removeA reg tid).1 rest).1 x
        = if x ∈ rest then none else lookupA (removeA reg tid).1 x := ih _ x hndr
    have hres : ∀ r2 : Option Task,
        lookupA (match (removeA reg tid).2 with
          | some task =>
            let k := runWaveCore (removeA reg tid).1 rest
            (k.1, tid :: k.2.1, (if task.panics then 0 else 1) + k.2.2)
          | none => runWaveCore (removeA reg tid).1 rest).1 x
          = lookupA (runWaveCore (removeA reg tid).1 rest).1 x := by
      intro r2
      cases (removeA reg tid).2 with
      | none => rfl
      | some task => rfl
    rw [hres none, hmain]
    by_cases hx : x ∈ rest
    · simp [hx]
    · by_cases hxt : x = tid
      · subst hxt
        have : lookupA (removeA reg x).1 x = none := by
          cases hl : lookupA reg x with
          | none =>
            rw [removeA_none reg x hl]
            exact hl
          | some task =>
            rw [removeA_fst_filter reg x hnd]
            cases hc : lookupA (reg.filter (fun e => !(e.1 == x))) x with
            | none => rfl
            | some v =>
              have hmem := lookupA_eq_some_mem hc
              have := List.mem_filter.1 hmem
              simp at this
        simp [hx, this]
      · have : lookupA (removeA reg tid).1 x = lookupA reg x :=
          lookupA_removeA_ne reg tid x hxt
        have hnotin : ¬ x ∈ tid :: rest := by
          intro hc
          rcases List.mem_cons.1 hc with h | h
          · exact hxt h
          · exact hx h
        simp [hx, hxt, hnotin, this]

theorem runWaveCore_all (grp : List TaskId) :
    ∀ reg, (keysA reg).Nodup → grp.Nodup → (∀ x ∈ grp, x ∈ keysA reg) →
      (runWaveCore reg grp).2.1 = grp ∧
      ((∀ e ∈ reg, e.2.panics = false) → (runWaveCore reg grp).2.2 = grp.length) := by
  induction grp with
  | nil =>
    intro reg _ _ _
    exact ⟨rfl, fun _ => rfl⟩
  | cons tid rest ih =>
    intro reg hnd hgnd hmem
    obtain ⟨task, hl⟩ : ∃ task, lookupA reg tid = some task := by
      have := (mem_keysA_iff reg tid).1 (hmem tid (List.mem_cons_self _ _))
      cases hc : lookupA reg tid with
      | none => exact absurd hc this
      | some t2 => exact ⟨t2, rfl⟩
    have hr : (removeA reg tid).2 = some task := by rw [removeA_snd]; exact hl
    rw [List.nodup_cons] at hgnd
    have hndr : (keysA (removeA reg tid).1).Nodup :=
      hnd.sublist ((removeA_fst_sublist reg tid).map _)
    have hmemr : ∀ x ∈ rest, x ∈ keysA (removeA reg tid).1 := by
      intro x hx
      have hxne : x ≠ tid := fun hh => hgnd.1 (hh ▸ hx)
      rw [mem_keysA_iff, lookupA_removeA_ne reg tid x hxne]
      exact (mem_keysA_iff reg x).1 (hmem x (List.mem_cons_of_mem _ hx))
    obtain ⟨ih1, ih2⟩ := ih _ hndr hgnd.2 hmemr
    constructor
    · simp only [runWaveCore, hr]
      rw [ih1]
    · intro hok
      have hokr : ∀ e ∈ (removeA reg tid).1, e.2.panics = false := fun e he =>
        hok e ((removeA_fst_sublist reg tid).mem he)
      have htask : task.panics = false := hok (tid, task) (lookupA_eq_some_mem hl)
      simp only [runWaveCore, hr]
      rw [htask, ih2 hokr]
      simp [List.length_cons]
      omega

theorem execWaves_length (groups : List (List TaskId)) :
    ∀ reg, (execWaves reg groups).2.length = groups.length := by
  induction groups with
  | nil => intro reg; rfl
  | cons grp rest ih =>
    intro reg
    simp only [execWaves]
    rw [List.length_cons, ih, List.length_cons]

theorem execWaves_keys_shrink (groups : List (List TaskId)) :
    ∀ reg, ((execWaves reg groups).1).Sublist reg := by
  induction groups with
  | nil => intro reg; exact List.Sublist.refl reg
  | cons grp rest ih =>
    intro reg
    exact (ih _).trans (runWaveCore_fst_sublist grp reg)

theorem execWaves_all (groups : List (List TaskId)) :
    ∀ reg, (keysA reg).Nodup → groups.flatten.Nodup →
      (∀ x ∈ groups.flatten, x ∈ keysA reg) →
      (∀ e ∈ reg, e.2.panics = false) →
      (execWaves reg groups).2 = groups.map
        (fun grp => { barrierInit := grp.length, submitted := grp, signals := grp.length }) := by
  induction groups with
  | nil => intro reg _ _ _ _; rfl
  | cons grp rest ih =>
    intro reg hnd hfnd hmem hok
    rw [List.flatten_cons] at hfnd hmem
    rw [List.nodup_append] at hfnd
    have hgrp_nd : grp.Nodup := hfnd.1
    have hgrp_mem : ∀ x ∈ grp, x ∈ keysA reg := fun x hx =>
      hmem x (List.mem_append.2 (Or.inl hx))
    obtain ⟨h1, h2⟩ := runWaveCore_all grp reg hnd hgrp_nd hgrp_mem
    have hreg' := runWaveCore_fst_sublist grp reg
    have hnd' : (keysA (runWaveCore reg grp).1).Nodup := hnd.sublist (hreg'.map _)
    have hok' : ∀ e ∈ (runWaveCore reg grp).1, e.2.panics = false := fun e he =>
      hok e (hreg'.mem he)
    have hmem' : ∀ x ∈ rest.flatten, x ∈ keysA (runWaveCore reg grp).1 := by
      intro x hx
      have hxk : x ∈ keysA reg := hmem x (List.mem_append.2 (Or.inr hx))
      have hxg : x ∉ grp := fun hc => hfnd.2.2 hc hx
      rw [mem_keysA_iff, runWaveCore_lookup grp reg x hnd]
      simp only [hxg, if_false]
      exact (mem_keysA_iff reg x).1 hxk
    simp only [execWaves, runWave, List.map_cons]
    rw [ih _ hnd' hfnd.2.1 hmem' hok']
    rw [h1, h2 hok]

theorem execWaves_hang (groups : List (List TaskId)) (d : TaskId) :
    ∀ reg, d ∉ keysA reg → d ∈ groups.flatten →
      ∃ w ∈ (execWaves reg groups).2, w.signals < w.barrierInit := by
  induction groups with
  | nil =>
    intro reg _ h
    simp at h
  | cons grp rest ih =>
    intro reg hk hd
    rw [List.flatten_cons, List.mem_append] at hd
    rcases hd with hd | hd
    · refine ⟨(runWave reg grp).2, List.mem_cons_self _ _, ?_⟩
      have h1 := runWaveCore_signals_le grp reg
      have h2 := runWaveCore_miss grp d reg hk hd
      simp only [runWave]
      omega
    · have hk' : d ∉ keysA (runWaveCore reg grp).1 := fun hc =>
        hk (((runWaveCore_fst_sublist grp reg).map _).mem hc)
      obtain ⟨w, hw, hlt⟩ := ih _ hk' hd
      exact ⟨w, List.mem_cons_of_mem _ hw, hlt⟩

theorem execWaves_not_submitted (groups : List (List TaskId)) (d : TaskId) :
    ∀ reg, d ∉ keysA reg → ∀ w ∈ (execWaves reg groups).2, d ∉ w.submitted := by
  induction groups with
  | nil =>
    intro reg _ w hw
    simp [execWaves] at hw
  | cons grp rest ih =>
    intro reg hk w hw
    rcases List.mem_cons.1 hw with hw | hw
    · subst hw
      intro hc
      exact hk (runWaveCore_submitted_subset grp reg d hc)
    · have hk' : d ∉ keysA (runWaveCore reg grp).1 := fun hc =>
        hk (((runWaveCore_fst_sublist grp reg).map _).mem hc)
      exact ih _ hk' w hw

theorem runWaveCore_filter (grp : List TaskId) :
    ∀ reg, (keysA reg).Nodup →
      (runWaveCore reg grp).1 = reg.filter (fun e => !(decide (e.1 ∈ grp))) := by
  induction grp with
  | nil =>
    intro reg _
    have hid : reg.filter (fun e => !(decide (e.1 ∈ ([] : List TaskId)))) = reg :=
      List.filter_eq_self.2 (fun e _ => by simp)
    rw [hid]
    rfl
  | cons tid rest ih =>
    intro reg hnd
    have hndr : (keysA (removeA reg tid).1).Nodup :=
      hnd.sublist ((removeA_fst_sublist reg tid).map _)
    have hstep : (runWaveCore reg (tid :: rest)).1
        = (runWaveCore (removeA reg tid).1 rest).1 := by
      simp only [runWaveCore]
      cases hr : (removeA reg tid).2 with
      | none => rfl
      | some task => rfl
    rw [hstep, ih _ hndr]
    cases hl : lookupA reg tid with
    | none =>
      rw [removeA_none reg tid hl]
      apply List.filter_congr
      intro e he
      have htid : tid ∉ keysA reg := by
        rw [mem_keysA_iff]
        simp [hl]
      have hne : ¬ e.1 = tid := fun hh => htid (hh ▸ List.mem_map_of_mem Prod.fst he)
      simp [List.mem_cons, hne]
    | some task =>
      rw [removeA_fst_filter reg tid hnd, List.filter_filter]
      apply List.filter_congr
      intro e he
      by_cases h1 : e.1 = tid
      · simp [h1]
      · by_cases h2 : e.1 ∈ rest <;> simp [h1, h2]

theorem execWaves_frame (groups : List (List TaskId)) :
    ∀ reg, (keysA reg).Nodup →
      (execWaves reg groups).1 = reg.filter (fun e => !(decide (e.1 ∈ groups.flatten))) := by
  induction groups with
  | nil =>
    intro reg _
    have hid : reg.filter (fun e => !(decide (e.1 ∈ ([] : List (List TaskId)).flatten))) = reg :=
      List.filter_eq_self.2 (fun e _ => by simp)
    rw [hid]
    rfl
  | cons grp rest ih =>
    intro reg hnd
    have hnd' : (keysA (runWaveCore reg grp).1).Nodup :=
      hnd.sublist ((runWaveCore_fst_sublist grp reg).map _)
    have hstep : (execWaves reg (grp :: rest)).1
        = (execWaves (runWaveCore reg grp).1 rest).1 := rfl
    rw [hstep, ih _ hnd', runWaveCore_filter grp reg hnd, List.filter_filter]
    apply List.filter_congr
    intro e he
    rw [List.flatten_cons]
    by_cases h1 : e.1 ∈ grp
    · simp [h1]
    · by_cases h2 : e.1 ∈ rest.flatten <;> simp [h1, h2]

/-! ### Facts about group_tasks as a whole -/

theorem group_tasks_length (g : TaskGraph) (s : List TaskId) :
    (g.group_tasks s).length = (computeLevelsAux g.dependencies [] 0 s).2 + 1 := by
  unfold TaskGraph.group_tasks
  rw [fillGroups_length]
  simp

theorem group_tasks_count (g : TaskGraph) (s : List TaskId) (hnd : s.Nodup) (x : TaskId) :
    ((g.group_tasks s).flatten).count x = s.count x := by
  unfold TaskGraph.group_tasks
  rw [fillGroups_count]
  · rw [flatten_replicate_nil]
    have hkeys : (computeLevelsAux g.dependencies [] 0 s).1.map Prod.fst = s :=
      computeLevels_keys g.dependencies s hnd
    rw [hkeys]
    simp
  · intro e he
    have hle := computeLevelsAux_val_le g.dependencies s [] 0 (by simp) e he
    simp only [List.length_replicate]
    omega

theorem group_tasks_mem_bucket (g : TaskGraph) (s : List TaskId) (x : TaskId) (j : Nat)
    (h : x ∈ (g.group_tasks s).getD j []) :
    lookupA (computeLevels g.dependencies s) x = some j := by
  unfold TaskGraph.group_tasks at h
  rcases mem_fillGroups _ _ _ _ h with h2 | h2
  · rw [getD_replicate_nil] at h2
    simp at h2
  · exact lookupA_of_mem_nodup (computeLevelsAux_keys_nodup g.dependencies s [] 0 (by simp [keysA])) h2

theorem group_tasks_bucket_of_lookup (g : TaskGraph) (s : List TaskId) (x : TaskId) (j : Nat)
    (h : lookupA (computeLevels g.dependencies s) x = some j) :
    j < (g.group_tasks s).length ∧ x ∈ (g.group_tasks s).getD j [] := by
  have hmem : (x, j) ∈ (computeLevelsAux g.dependencies [] 0 s).1 := lookupA_eq_some_mem h
  have hle := computeLevelsAux_val_le g.dependencies s [] 0 (by simp) (x, j) hmem
  have hlen : j < (g.group_tasks s).length := by
    rw [group_tasks_length]
    omega
  refine ⟨hlen, ?_⟩
  unfold TaskGraph.group_tasks
  apply fillGroups_mem_of_entry _ _ _ _ hmem
  simp only [List.length_replicate]
  omega

theorem sorted_covers (ops : List Op)
    (hvalid : ValidEdges (build ops))
    (hacyc : ((build ops).topological_sort).length = (build ops).tasks.length) :
    ((build ops).topological_sort).Nodup ∧
    (∀ t ∈ (build ops).topological_sort, t ∈ registryKeys (build ops)) ∧
    (∀ t ∈ registryKeys (build ops), ((build ops).topological_sort).count t = 1) ∧
    (∀ t ∈ registryKeys (build ops), t ∈ (build ops).topological_sort) := by
  have hI := buildInv_build ops
  obtain ⟨hnd, hkeys, _⟩ := topological_sort_props (build ops) hI
  have hsub : ∀ t ∈ (build ops).topological_sort, t ∈ registryKeys (build ops) := by
    intro t ht
    have hk := hkeys t ht
    rw [inDegreeInit_lookup _ hI.depsKeysNodup] at hk
    by_cases hm : t ∈ registryKeys (build ops) ∨ t ∈ keysA (build ops).dependencies
    · rcases hm with hm | hm
      · exact hm
      · rcases List.mem_map.1 hm with ⟨e, he, hfst⟩
        exact hfst ▸ (hvalid e he).1
    · rw [if_neg hm] at hk
      simp at hk
  have hsp : List.Subperm (build ops).topological_sort (registryKeys (build ops)) :=
    List.Nodup.subperm hnd hsub
  have hlen : (registryKeys (build ops)).length ≤ ((build ops).topological_sort).length := by
    rw [hacyc]
    simp [registryKeys]
  have hperm := List.Subperm.perm_of_length_le hsp hlen
  refine ⟨hnd, hsub, ?_, ?_⟩
  · intro t ht
    rw [hperm.count_eq]
    exact List.count_eq_one_of_mem (registryKeys_eq (build ops) ▸ hI.tasksNodup) ht
  · intro t ht
    exact hperm.mem_iff.2 ht

theorem execute_eq (g : TaskGraph) :
    g.execute
      = ({ g with tasks := (execWaves g.tasks (g.group_tasks g.topological_sort)).1 },
         (execWaves g.tasks (g.group_tasks g.topological_sort)).2) := rfl

theorem kahnLoop_empty_queue (rev : List (TaskId × List TaskId)) :
    ∀ fuel indeg sorted, kahnLoop rev fuel indeg [] sorted = sorted := by
  intro fuel
  cases fuel <;> intro indeg sorted <;> rfl

/-! ### The claims -/

/-- Claim C1: for every graph reachable through the API whose dependency edges
reference only registered ids and whose topological sort covers every task
(the code's own acyclicity criterion), `execute` with non-panicking actions
submits each registered task's action to the pool exactly once; every wave's
barrier receives exactly as many `task_completed` signals as its initial
count, so each `wait_for_completion` returns and the strict wave barrier is
in force; and for every edge the prerequisite sits in a strictly earlier
dispatch wave than its dependent, which under the wave protocol means the
prerequisite's action completes before the dependent's action starts. -/
theorem c1_execute_exactly_once_and_level_ordered (ops : List Op)
    (hvalid : ValidEdges (build ops))
    (hacyc : ((build ops).topological_sort).length = (build ops).tasks.length)
    (hok : ∀ e ∈ (build ops).tasks, e.2.panics = false) :
    (∀ t ∈ registryKeys (build ops),
      ((((build ops).execute).2.map (fun w => w.submitted)).flatten).count t = 1) ∧
    (∀ w ∈ ((build ops).execute).2, w.signals = w.barrierInit) ∧
    (∀ d p, p ∈ depsOf (build ops).dependencies d →
      ∀ i j, d ∈ ((build ops).group_tasks (build ops).topological_sort).getD i [] →
        p ∈ ((build ops).group_tasks (build ops).topological_sort).getD j [] → j < i) := by
  have hI := buildInv_build ops
  obtain ⟨hsnd, hsub, hcnt1, _⟩ := sorted_covers ops hvalid hacyc
  obtain ⟨_, _, htopo⟩ := topological_sort_props (build ops) hI
  have hknd : (keysA (build ops).tasks).Nodup := registryKeys_eq (build ops) ▸ hI.tasksNodup
  have hgc : ∀ x, (((build ops).group_tasks (build ops).topological_sort).flatten).count x
      = ((build ops).topological_sort).count x :=
    fun x => group_tasks_count _ _ hsnd x
  have hfnd : ((build ops).group_tasks (build ops).topological_sort).flatten.Nodup := by
    rw [List.nodup_iff_count_le_one]
    intro a
    rw [hgc a]
    exact List.nodup_iff_count_le_one.1 hsnd a
  have hfmem : ∀ x ∈ ((build ops).group_tasks (build ops).topological_sort).flatten,
      x ∈ keysA (build ops).tasks := by
    intro x hx
    have hpos : 0 < (((build ops).group_tasks (build ops).topological_sort).flatten).count x :=
      List.count_pos_iff.2 hx
    rw [hgc x] at hpos
    have hxs : x ∈ (build ops).topological_sort := List.count_pos_iff.1 hpos
    exact registryKeys_eq (build ops) ▸ hsub x hxs
  have hwaves : ((build ops).execute).2
      = ((build ops).group_tasks (build ops).topological_sort).map
          (fun grp => { barrierInit := grp.length, submitted := grp, signals := grp.length }) := by
    rw [execute_eq]
    exact execWaves_all _ _ hknd hfnd hfmem hok
  refine ⟨?_, ?_, ?_⟩
  · intro t ht
    have hcomp : ((fun w : Wave => w.submitted) ∘ (fun grp : List TaskId => { barrierInit := grp.length, submitted := grp, signals := grp.length })) = id := by
      funext grp
      rfl
    rw [hwaves, List.map_map, hcomp, List.map_id, hgc t]
    exact hcnt1 t ht
  · intro w hw
    rw [hwaves] at hw
    rcases List.mem_map.1 hw with ⟨grp, _, rfl⟩
    rfl
  · intro d p hp i j hd hpj
    have hld := group_tasks_mem_bucket _ _ d i hd
    have hlp := group_tasks_mem_bucket _ _ p j hpj
    have hdmem : d ∈ (build ops).topological_sort := by
      have hk : d ∈ keysA (computeLevels (build ops).dependencies
          (build ops).topological_sort) := (mem_keysA_iff _ _).2 (by simp [hld])
      rwa [computeLevels_keys _ _ hsnd] at hk
    obtain ⟨ld, lp, hld2, hlp2, hlt⟩ :=
      level_lt_of_dep (build ops).dependencies (build ops).topological_sort
        hsnd htopo d p hdmem hp
    rw [hld] at hld2
    rw [hlp] at hlp2
    have hi := Option.some.inj hld2
    have hj := Option.some.inj hlp2
    omega

/-- Witness for C1: scenario A (five tasks, five edges) satisfies the
hypotheses, and the conclusion follows by the theorem. -/
theorem c1_witness :
    (ValidEdges (build opsA) ∧
     ((build opsA).topological_sort).length = (build opsA).tasks.length ∧
     (∀ e ∈ (build opsA).tasks, e.2.panics = false)) ∧
    ((∀ t ∈ registryKeys (build opsA),
        ((((build opsA).execute).2.map (fun w => w.submitted)).flatten).count t = 1) ∧
     (∀ w ∈ ((build opsA).execute).2, w.signals = w.barrierInit) ∧
     (∀ d p, p ∈ depsOf (build opsA).dependencies d →
       ∀ i j, d ∈ ((build opsA).group_tasks (build opsA).topological_sort).getD i [] →
         p ∈ ((build opsA).group_tasks (build opsA).topological_sort).getD j [] → j < i)) :=
  ⟨⟨by decide, by decide, by decide⟩,
   c1_execute_exactly_once_and_level_ordered opsA (by decide) (by decide) (by decide)⟩

/-- Claim C2: over any topological order of the graph, the computed level map
is a fixpoint of the code's level expression — level(t) is 0 when t has no
prerequisite entry and otherwise 1 plus the maximum prerequisite level — and
on scenario A (T1..T5 = ids 0..4 with edges T2→T1, T3→T2, T4→T1, T5→T3,
T5→T4) the levels are T1=0, T2=1, T4=1, T3=2, T5=3, yielding four dispatch
waves with T5 alone in the last one. -/
theorem c2_level_formula_and_scenarioA (deps : List (TaskId × List TaskId))
    (s : List TaskId) (h : IsTopoOrder deps s) :
    (∀ t ∈ s, lookupA (computeLevels deps s) t
      = some (levelOfTask deps (computeLevels deps s) t)) ∧
    (lookupA (computeLevels (build opsA).dependencies (build opsA).topological_sort) 0
        = some 0 ∧
     lookupA (computeLevels (build opsA).dependencies (build opsA).topological_sort) 1
        = some 1 ∧
     lookupA (computeLevels (build opsA).dependencies (build opsA).topological_sort) 3
        = some 1 ∧
     lookupA (computeLevels (build opsA).dependencies (build opsA).topological_sort) 2
        = some 2 ∧
     lookupA (computeLevels (build opsA).dependencies (build opsA).topological_sort) 4
        = some 3 ∧
     ((build opsA).group_tasks (build opsA).topological_sort).length = 4 ∧
     ((build opsA).group_tasks (build opsA).topological_sort).getD 3 [] = [4]) := by
  constructor
  · intro t ht
    exact computeLevels_recurrence deps s h.1 (isTopoOrder_split deps s h) t ht
  · exact ⟨by decide, by decide, by decide, by decide, by decide, by decide, by decide⟩

/-- Witness for C2: the sort order the code computes for scenario A is a
topological order, and the theorem applies to it. -/
theorem c2_witness :
    IsTopoOrder (build opsA).dependencies (build opsA).topological_sort ∧
    ((∀ t ∈ (build opsA).topological_sort,
        lookupA (computeLevels (build opsA).dependencies (build opsA).topological_sort) t
          = some (levelOfTask (build opsA).dependencies
              (computeLevels (build opsA).dependencies (build opsA).topological_sort) t)) ∧
     (lookupA (computeLevels (build opsA).dependencies (build opsA).topological_sort) 0
        = some 0 ∧
      lookupA (computeLevels (build opsA).dependencies (build opsA).topological_sort) 1
        = some 1 ∧
      lookupA (computeLevels (build opsA).dependencies (build opsA).topological_sort) 3
        = some 1 ∧
      lookupA (computeLevels (build opsA).dependencies (build opsA).topological_sort) 2
        = some 2 ∧
      lookupA (computeLevels (build opsA).dependencies (build opsA).topological_sort) 4
        = some 3 ∧
      ((build opsA).group_tasks (build opsA).topological_sort).length = 4 ∧
      ((build opsA).group_tasks (build opsA).topological_sort).getD 3 [] = [4])) :=
  ⟨by decide, c2_level_formula_and_scenarioA _ _ (by decide)⟩

/-- Claim C3 (code evaluated at the failing input): on a two-task cycle the
topological sort returns an empty sequence — strictly shorter than the task
count — yet `execute` raises no error of any kind (its return type is unit),
runs a single empty wave whose zero-count barrier clears immediately, submits
nothing, and leaves both tasks in the registry: the unscheduled task set is
silently dropped instead of being reported as a hard error. -/
theorem c3_cycle_silently_ignored :
    (build opsC3).tasks.length = 2 ∧
    (build opsC3).topological_sort = [] ∧
    ((build opsC3).execute).2 = [{ barrierInit := 0, submitted := [], signals := 0 }] ∧
    ¬ execHangs ((build opsC3).execute).2 ∧
    ((build opsC3).execute).1.tasks.length = 2 :=
  ⟨by decide, by decide, by decide, by decide, by decide⟩

/-- Claim C4 (code evaluated at the failing input): a single task whose action
panics is submitted, but the wrapper only calls `task_completed` after the
action returns, so the wave delivers zero signals against a barrier of one
and `wait_for_completion` blocks forever; no failure is surfaced. -/
theorem c4_panic_hangs_execute :
    ((build opsC4).execute).2 = [{ barrierInit := 1, submitted := [0], signals := 0 }] ∧
    execHangs ((build opsC4).execute).2 :=
  ⟨by decide, by decide⟩

/-- Claim C5 (code evaluated at the failing input): after `join` has
terminated the single worker, `execute` still succeeds — the pool's own
`receiver` field keeps the channel open, so `sender.send(...).unwrap()`
neither errors nor panics — and the job sits in the queue behind the
Terminate message where no worker will ever receive it: a silent drop, not
the "pool is shutting down" error the claim requires. -/
theorem c5_execute_after_join_silently_drops :
    (ThreadPool.new 1).map
      (fun p => (((p.join).execute false).queue,
        runQueue p.workers ((p.join).execute false).queue))
      = some ([PoolMsg.terminate, PoolMsg.job false], []) := by
  decide

/-- Counterexample to C6 as stated: the zero-task graph still creates one
`TaskCompletion` barrier — `group_tasks` returns `max_level + 1 = 1` wave
even when no task exists, and `execute` allocates a barrier for it — so "no
completion barrier is created" is false. -/
theorem c6_counterexample :
    (build []).tasks = [] ∧ ((build []).execute).2 ≠ [] :=
  ⟨by decide, by decide⟩

/-- Claim C6, amended: for every reachable graph with zero registered tasks,
`execute` submits no job and returns immediately, but it creates exactly one
completion barrier, initialized to zero, whose wait returns at once. -/
theorem c6_zero_task_execute (ops : List Op) (h : (build ops).tasks = []) :
    ((build ops).execute).2 = [{ barrierInit := 0, submitted := [], signals := 0 }] ∧
    ¬ execHangs ((build ops).execute).2 := by
  have hI := buildInv_build ops
  have hkeysnd := inDegreeInit_keys_nodup (build ops)
  have hseeds : (build ops).inDegreeInit.filter (fun e => e.2 == 0) = [] := by
    rw [List.filter_eq_nil_iff]
    intro e he
    have hl : lookupA (build ops).inDegreeInit e.1 = some e.2 :=
      lookupA_of_mem_nodup hkeysnd (by simpa using he)
    rw [inDegreeInit_lookup _ hI.depsKeysNodup] at hl
    by_cases hm : e.1 ∈ registryKeys (build ops) ∨ e.1 ∈ keysA (build ops).dependencies
    · rw [if_pos hm] at hl
      have hv : e.2 = (depsOf (build ops).dependencies e.1).length := by
        simpa using hl.symm
      have hreg : registryKeys (build ops) = [] := by simp [registryKeys, h]
      have hd : e.1 ∈ keysA (build ops).dependencies := by
        rcases hm with hm | hm
        · rw [hreg] at hm
          simp at hm
        · exact hm
      obtain ⟨l, hll⟩ : ∃ l, lookupA (build ops).dependencies e.1 = some l := by
        have hne := (mem_keysA_iff _ _).1 hd
        cases hc : lookupA (build ops).dependencies e.1 with
        | none => exact absurd hc hne
        | some l => exact ⟨l, rfl⟩
      have hlne := hI.depsNonempty (e.1, l) (lookupA_eq_some_mem hll)
      have hpos : (depsOf (build ops).dependencies e.1).length ≠ 0 := by
        rw [depsOf, hll]
        intro hz
        exact hlne (List.length_eq_zero.1 (by simpa using hz))
      simp only [beq_iff_eq]
      rw [hv] at *
      simpa using hpos
    · rw [if_neg hm] at hl
      simp at hl
  have hsort : (build ops).topological_sort = [] := by
    show kahnLoop (build ops).reverse_dependencies (build ops).kahnFuel
      (build ops).inDegreeInit
      (((build ops).inDegreeInit.filter (fun e => e.2 == 0)).map (·.1)) [] = []
    rw [hseeds]
    simp only [List.map_nil]
    exact kahnLoop_empty_queue _ _ _ _
  have htrace : ((build ops).execute).2
      = (execWaves (build ops).tasks
          ((build ops).group_tasks (build ops).topological_sort)).2 := rfl
  rw [htrace, hsort, h]
  have hgrp : (build ops).group_tasks [] = [[]] := rfl
  rw [hgrp]
  exact ⟨rfl, by decide⟩

/-- Witness for C6 amended: a graph holding only a dangling edge has zero
registered tasks, and the theorem applies to it. -/
theorem c6_witness :
    (build [Op.addDep 0 1]).tasks = [] ∧
    (((build [Op.addDep 0 1]).execute).2
        = [{ barrierInit := 0, submitted := [], signals := 0 }] ∧
     ¬ execHangs ((build [Op.addDep 0 1]).execute).2) :=
  ⟨by decide, c6_zero_task_execute [Op.addDep 0 1] (by decide)⟩

/-- Claim C7: the level assignment depends only on the dependency map, not on
which valid topological order the sort step produced: any two repetition-free
orders that cover the same tasks and list every prerequisite before its
dependent yield identical level numbers for every task — in particular,
recomputing levels twice on the same unmodified graph is deterministic. -/
theorem c7_level_determinism (deps : List (TaskId × List TaskId))
    (s s2 : List TaskId) (h : IsTopoOrder deps s) (h2 : IsTopoOrder deps s2)
    (hmem : (∀ x ∈ s, x ∈ s2) ∧ (∀ x ∈ s2, x ∈ s)) (t : TaskId) :
    lookupA (computeLevels deps s) t = lookupA (computeLevels deps s2) t :=
  computeLevels_order_indep deps s s2 h h2
    (fun x => ⟨fun hx => hmem.1 x hx, fun hx => hmem.2 x hx⟩) t

/-- Witness for C7: two different topological orders of scenario A's graph
give the same level for T5. -/
theorem c7_witness :
    (IsTopoOrder (build opsA).dependencies [0, 1, 3, 2, 4] ∧
     IsTopoOrder (build opsA).dependencies [0, 3, 1, 2, 4] ∧
     (∀ x ∈ ([0, 1, 3, 2, 4] : List TaskId), x ∈ ([0, 3, 1, 2, 4] : List TaskId)) ∧
     (∀ x ∈ ([0, 3, 1, 2, 4] : List TaskId), x ∈ ([0, 1, 3, 2, 4] : List TaskId))) ∧
    lookupA (computeLevels (build opsA).dependencies [0, 1, 3, 2, 4]) 4
      = lookupA (computeLevels (build opsA).dependencies [0, 3, 1, 2, 4]) 4 :=
  ⟨⟨by decide, by decide, by decide, by decide⟩,
   c7_level_determinism (build opsA).dependencies [0, 1, 3, 2, 4] [0, 3, 1, 2, 4]
     (by decide) (by decide) ⟨by decide, by decide⟩ 4⟩

/-- Claim C8: after any sequence of `add_task` and `add_dependency` calls,
the forward and reverse dependency maps are consistent: the pair
(dependent, prerequisite) occurs in the forward list of the dependent
exactly as many times as the dependent occurs in the reverse list of the
prerequisite, because `add_dependency` pushes into both maps. -/
theorem c8_dependency_maps_consistent (ops : List Op) : Consistent (build ops) :=
  (buildInv_build ops).cons

/-- Claim C9: `execute` removes exactly the dispatched tasks (those placed in
some wave) from the registry and leaves the forward map, the reverse map and
the id counter unchanged; `topological_sort` and `group_tasks` take the graph
immutably (Rust `&self`) and are embedded as pure functions, so they modify
no graph state by construction. -/
theorem c9_execute_frame (ops : List Op) :
    ((build ops).execute).1.dependencies = (build ops).dependencies ∧
    ((build ops).execute).1.reverse_dependencies = (build ops).reverse_dependencies ∧
    ((build ops).execute).1.next_id = (build ops).next_id ∧
    ((build ops).execute).1.tasks
      = (build ops).tasks.filter
          (fun e => !(decide (e.1
            ∈ ((build ops).group_tasks (build ops).topological_sort).flatten))) := by
  refine ⟨rfl, rfl, rfl, ?_⟩
  rw [execute_eq]
  exact execWaves_frame _ _ (registryKeys_eq (build ops) ▸ (buildInv_build ops).tasksNodup)

/-- Counterexample to C10 as stated: an edge whose dependent id 5 and
prerequisite id 7 are both unregistered puts 5 into the in-degree map, but 5
never reaches the queue (its prerequisite is never scheduled), lands in no
dispatch wave, and `execute` returns without hanging — so the claim's
"is placed in a dispatch wave … and the wait never returns" does not hold
unconditionally. -/
theorem c10_counterexample :
    5 ∈ keysA (build opsC10bad).dependencies ∧
    5 ∉ registryKeys (build opsC10bad) ∧
    5 ∉ ((build opsC10bad).group_tasks (build opsC10bad).topological_sort).flatten ∧
    ¬ execHangs ((build opsC10bad).execute).2 :=
  ⟨by decide, by decide, by decide, by decide⟩

/-- Claim C10, amended: if an edge's dependent id was never registered via
`add_task` on this graph, the id still enters the topological sort through
the in-degree map; whenever the sort schedules it (as happens e.g. when all
its prerequisites are registered and acyclic), it is placed in a dispatch
wave whose barrier counts it while the registry lookup finds nothing to
submit, so that wave receives strictly fewer signals than its barrier's
initial count and `execute`'s wait never returns. -/
theorem c10_unregistered_dependent_hangs (ops : List Op) (d : TaskId)
    (hdep : d ∈ keysA (build ops).dependencies)
    (hunreg : d ∉ registryKeys (build ops))
    (hsched : d ∈ (build ops).topological_sort) :
    d ∈ keysA (build ops).inDegreeInit ∧
    d ∈ ((build ops).group_tasks (build ops).topological_sort).flatten ∧
    (∀ w ∈ ((build ops).execute).2, d ∉ w.submitted) ∧
    execHangs ((build ops).execute).2 := by
  have hI := buildInv_build ops
  have hkey : d ∈ keysA (build ops).inDegreeInit := by
    rw [mem_keysA_iff, inDegreeInit_lookup _ hI.depsKeysNodup]
    simp [hdep]
  have hlv : lookupA (computeLevels (build ops).dependencies
      (build ops).topological_sort) d ≠ none :=
    computeLevelsAux_lookup_mem _ _ [] 0 d hsched
  obtain ⟨j, hj⟩ : ∃ j, lookupA (computeLevels (build ops).dependencies
      (build ops).topological_sort) d = some j := by
    cases hc : lookupA (computeLevels (build ops).dependencies
        (build ops).topological_sort) d with
    | none => exact absurd hc hlv
    | some j => exact ⟨j, rfl⟩
  obtain ⟨hjlt, hbucket⟩ := group_tasks_bucket_of_lookup _ _ d j hj
  have hflat : d ∈ ((build ops).group_tasks (build ops).topological_sort).flatten :=
    mem_getD_flatten _ j d hbucket
  have hkreg : d ∉ keysA (build ops).tasks := by
    rw [← registryKeys_eq]
    exact hunreg
  refine ⟨hkey, hflat, ?_, ?_⟩
  · have htr : ((build ops).execute).2
        = (execWaves (build ops).tasks
            ((build ops).group_tasks (build ops).topological_sort)).2 := rfl
    rw [htr]
    exact execWaves_not_submitted _ d _ hkreg
  · have htr : ((build ops).execute).2
        = (execWaves (build ops).tasks
            ((build ops).group_tasks (build ops).topological_sort)).2 := rfl
    rw [htr]
    exact execWaves_hang _ d _ hkreg hflat

/-- Witness for C10 amended: one registered task 0 and an edge 9→0 with 9
foreign; the sort schedules 9, its wave's barrier counts it, nothing is
submitted for it, and execute hangs. -/
theorem c10_witness :
    (9 ∈ keysA (build opsC10w).dependencies ∧
     9 ∉ registryKeys (build opsC10w) ∧
     9 ∈ (build opsC10w).topological_sort) ∧
    (9 ∈ keysA (build opsC10w).inDegreeInit ∧
     9 ∈ ((build opsC10w).group_tasks (build opsC10w).topological_sort).flatten ∧
     (∀ w ∈ ((build opsC10w).execute).2, 9 ∉ w.submitted) ∧
     execHangs ((build opsC10w).execute).2) :=
  ⟨⟨by decide, by decide, by decide⟩,
   c10_unregistered_dependent_hangs opsC10w 9 (by decide) (by decide) (by decide)⟩

end Tempura
